import Mathlib

/-!
Verification of the MARCUS PDF content-extraction core
(`backend/app/modules/dockling_wrapper.py`) against its specification.

The Python module is shallowly embedded: Python `str` is Lean `String`
(with `List Char` workers), case mapping is modelled for the ASCII range
(the keyword tests in the source are all ASCII), Python float threshold
comparisons (`> len*0.3`, `< 0.7`) are modelled by the exact rational
comparison (`10*a > 3*b`, `10*a < 7*b`), which agrees with IEEE doubles
for every count/length pair the code can produce short of astronomically
large inputs.  `re.search` truthiness is embedded as an explicit
existence-of-match scanner for each concrete pattern of the source.
All definitions are structurally recursive so concrete runs reduce by
`decide`.
-/

namespace Marcus

/-! ## Character primitives (Python semantics, ASCII case mapping) -/

/-- Python `str.split()` / `strip()` whitespace (ASCII range of `\s`). -/
def isWsChar (c : Char) : Bool :=
  c.toNat == 32 || c.toNat == 9 || c.toNat == 10 || c.toNat == 13 ||
    c.toNat == 11 || c.toNat == 12

def isUpperAlpha (c : Char) : Bool := 65 ≤ c.toNat && c.toNat ≤ 90

def isLowerAlpha (c : Char) : Bool := 97 ≤ c.toNat && c.toNat ≤ 122

def isAlphaChar (c : Char) : Bool := isUpperAlpha c || isLowerAlpha c

def isDigitChar (c : Char) : Bool := 48 ≤ c.toNat && c.toNat ≤ 57

/-- Regex `\w`: letters, digits, underscore. -/
def isWordChar (c : Char) : Bool := isAlphaChar c || isDigitChar c || c = '_'

/-- ASCII lower-casing of one character (`str.lower`). -/
def lowerChar (c : Char) : Char :=
  if 65 ≤ c.toNat ∧ c.toNat ≤ 90 then Char.ofNat (c.toNat + 32) else c

/-- ASCII upper-casing of one character (`str.upper`). -/
def upperChar (c : Char) : Char :=
  if 97 ≤ c.toNat ∧ c.toNat ≤ 122 then Char.ofNat (c.toNat - 32) else c

/-! ## List-of-characters workers -/

/-- `stripL l` removes leading and trailing whitespace (`str.strip`). -/
def stripL (l : List Char) : List Char :=
  ((l.dropWhile isWsChar).reverse.dropWhile isWsChar).reverse

/-- Does `p` match literally at the head of `l`? -/
def prefMatch : List Char → List Char → Bool
  | [], _ => true
  | _ :: _, [] => false
  | a :: p, b :: l => a = b && prefMatch p l

/-- If `p` matches at the head of `l`, the remainder of `l` after it. -/
def dropPre : List Char → List Char → Option (List Char)
  | [], l => some l
  | _ :: _, [] => none
  | a :: p, b :: l => if a = b then dropPre p l else none

/-- Python `needle in hay` (contiguous substring). -/
def isSubstrL (needle : List Char) : List Char → Bool
  | [] => prefMatch needle []
  | c :: t => prefMatch needle (c :: t) || isSubstrL needle t

/-- `str.split()` with no argument: split on whitespace runs, no empties. -/
def splitWsGo (cur : List Char) : List Char → List (List Char)
  | [] => if cur = [] then [] else [cur.reverse]
  | c :: t =>
    if isWsChar c then
      if cur = [] then splitWsGo [] t else cur.reverse :: splitWsGo [] t
    else splitWsGo (c :: cur) t

def splitWsL (l : List Char) : List (List Char) := splitWsGo [] l

/-! ## String-level wrappers -/

def pyLower (s : String) : String := ⟨s.data.map lowerChar⟩

def pyUpper (s : String) : String := ⟨s.data.map upperChar⟩

def pyStrip (s : String) : String := ⟨stripL s.data⟩

/-- Python `needle in hay`. -/
def containsSub (hay needle : String) : Bool := isSubstrL needle.data hay.data

/-- `len(s.split())`. -/
def wordCount (s : String) : Nat := (splitWsL s.data).length

/-- `" ".join(parts)`. -/
def joinSpace (parts : List String) : String := String.intercalate " " parts

/-! ## `_is_author_line`: the regex machinery

Each `re.search` of the source is embedded as an existence-of-match
scanner specialised to its pattern.  Greedy consumption is used at the
junctures where the repeated class is disjoint from what follows, which
preserves existence of a match.
-/

/-- One `[A-Z][a-z]+` token; returns the remainder after the
greedily-consumed lowercase run. -/
def nameTok : List Char → Option (List Char)
  | c :: d :: t =>
    if isUpperAlpha c && isLowerAlpha d then some (t.dropWhile isLowerAlpha) else none
  | _ => none

/-- `[A-Z][a-z]+ [A-Z][a-z]+` (single literal space), remainder after. -/
def namePair (l : List Char) : Option (List Char) :=
  match nameTok l with
  | some (' ' :: r) => nameTok r
  | _ => none

/-- `^[A-Z][a-z]+ [A-Z][a-z]+(?:,\s*[A-Z][a-z]+ [A-Z][a-z]+)+` -/
def authorPat1 (l : List Char) : Bool :=
  match namePair l with
  | some (',' :: r) => (namePair (r.dropWhile isWsChar)).isSome
  | _ => false

/-- The superscript/marker class of the second author pattern. -/
def supChars : List Char :=
  ['¹', '²', '³', '⁴', '⁵', '⁶', '⁷', '⁸', '⁹', '⁰', 'ᵃ', 'ᵇ', 'ᶜ', 'ᵈ', 'ᵉ',
   'ᶠ', 'ᵍ', 'ʰ', 'ⁱ', 'ʲ', 'ᵏ', 'ˡ', 'ᵐ', 'ⁿ', 'ᵒ', 'ᵖ', 'ʳ', 'ˢ', 'ᵗ', 'ᵘ',
   'ᵛ', 'ʷ', 'ˣ', 'ʸ', 'ᶻ', '*', '†', '‡', '§', '¶']

def authorPat2At (l : List Char) : Bool :=
  match namePair l with
  | some (c :: _) => supChars.contains c
  | _ => false

/-- `[A-Z][a-z]+ [A-Z][a-z]+[¹…¶]+` (unanchored search). -/
def authorPat2 : List Char → Bool
  | [] => false
  | c :: t => authorPat2At (c :: t) || authorPat2 t

/-- `^\d+\s*[A-Z][a-z]+ [A-Z][a-z]+` -/
def authorPat3 : List Char → Bool
  | c :: t =>
    isDigitChar c && (namePair ((t.dropWhile isDigitChar).dropWhile isWsChar)).isSome
  | [] => false

/-- The degree-token alternation `(PhD|Ph\.D\.|MD|Dr\.|Prof\.|Professor)`. -/
def degreeTok (l : List Char) : Bool :=
  prefMatch "PhD".data l || prefMatch "Ph.D.".data l || prefMatch "MD".data l ||
  prefMatch "Dr.".data l || prefMatch "Prof.".data l || prefMatch "Professor".data l

def authorPat4At (l : List Char) : Bool :=
  match nameTok l with
  | some (c :: r) =>
    isWsChar c &&
      (match nameTok (r.dropWhile isWsChar) with
       | some r2 =>
         (match r2 with
          | ',' :: u => degreeTok (u.dropWhile isWsChar)
          | _ => degreeTok (r2.dropWhile isWsChar))
       | none => false)
  | _ => false

/-- `[A-Z][a-z]+\s+[A-Z][a-z]+,?\s*(PhD|Ph\.D\.|MD|Dr\.|Prof\.|Professor)` -/
def authorPat4 : List Char → Bool
  | [] => false
  | c :: t => authorPat4At (c :: t) || authorPat4 t

/-- Python `str.islower()` over the ASCII model: at least one cased
character and no uppercase character. -/
def pyIsLowerL (l : List Char) : Bool :=
  l.any isAlphaChar && l.all (fun c => !isUpperAlpha c)

/-- One pass of the "name-shaped word" test of `_is_author_line`:
`clean_word = re.sub(r"[^\w]", "", word)` then shape checks. -/
def properNameWord (w : List Char) : Bool :=
  let clean := w.filter isWordChar
  decide (1 < clean.length) &&
    (match clean with
     | c :: rest => isUpperAlpha c && pyIsLowerL rest
     | [] => false) &&
    decide (2 < clean.length)

/-- The multiple-proper-names heuristic of `_is_author_line`. -/
def nameWordsCheck (content : String) : Bool :=
  let words := splitWsL content.data
  if 2 ≤ words.length ∧ content.length < 300 then
    decide (3 ≤ (words.filter properNameWord).length) && decide (content.length < 200)
  else false

/-- The fixed keyword list scanned against `content.lower()`. -/
def problematicKws : List String :=
  ["corresponding author", "equal contribution", "present address",
   "current address", "orcid:", "email:", "e-mail:", "tel:", "fax:", "phone:",
   "dipartimento", "universita", "università", "university", "institute",
   "institut", "department", "college", "school of", "faculty of",
   "laboratory", "lab ", "center for", "centre for", "hospital",
   "medical center", "research center",
   "via ", "avenue", "street", "road", "blvd", "boulevard", "italy",
   "genova", "salerno", "bamako", "mali",
   "received", "accepted", "published", "correspondence:", "funding:",
   "doi:", "copyright", "journal of", "volume", "issue", "page",
   "table ", "figure ", "fig ", "chart ", "scheme ", "plate ",
   "anti-inflammatory activity", "carrageenan-induced",
   "compounds 1", "compounds ", "compound ", "structures of", "chemical",
   "synthesis", "analysis", "characterization",
   "†", "‡", "§", "¶", "*", "**", "***",
   ".it", ".edu", ".org", ".ac.", ".univ"]

/-- The character class of the symbol-density test. -/
def symbolClass : List Char :=
  ['†', '‡', '§', '¶', '*', ',', '(', ')', '[', ']', '{', '}',
   '0', '1', '2', '3', '4', '5', '6', '7', '8', '9']

def symCount (l : List Char) : Nat := (l.filter (fun c => symbolClass.contains c)).length

/-- The affiliation-marker class `[†‡§¶\*]{1,3}` (search ⇔ one present). -/
def markerChars : List Char := ['†', '‡', '§', '¶', '*']

/-! ### Email pattern `\b[A-Za-z0-9._%+-]+@[A-Za-z0-9.-]+\.[A-Z|a-z]{2,}\b` -/

def isEm1 (c : Char) : Bool :=
  isAlphaChar c || isDigitChar c || c = '.' || c = '_' || c = '%' || c = '+' || c = '-'

def isEm2 (c : Char) : Bool := isAlphaChar c || isDigitChar c || c = '.' || c = '-'

def isEm3 (c : Char) : Bool := isAlphaChar c || c = '|'

/-- After ≥ 2 TLD-class characters (`prev` the last one): either a word
boundary closes the match here, or one more class character extends it. -/
def emailTldGo (prev : Char) : List Char → Bool
  | [] => isWordChar prev
  | c :: t => (isWordChar prev != isWordChar c) || (isEm3 c && emailTldGo c t)

def emailAfterDot : List Char → Bool
  | c1 :: c2 :: t => isEm3 c1 && isEm3 c2 && emailTldGo c2 t
  | _ => false

/-- After ≥ 1 domain-class character: a literal `.` may start the TLD, or
another domain-class character extends the run (backtracking search). -/
def emailDomGo : List Char → Bool
  | [] => false
  | c :: t => (c = '.' && emailAfterDot t) || (isEm2 c && emailDomGo t)

def emailDomain : List Char → Bool
  | c :: t => isEm2 c && emailDomGo t
  | [] => false

def emailLocal : List Char → Bool
  | [] => false
  | c :: t => (c = '@' && emailDomain t) || (isEm1 c && emailLocal t)

/-- Word boundary before a match starting with `c` (`prev = none` at the
start of the string, which counts as non-word). -/
def bdryBefore (prev : Option Char) (c : Char) : Bool :=
  (match prev with
   | none => false
   | some p => isWordChar p) != isWordChar c

def emailAt (prev : Option Char) : List Char → Bool
  | c :: t => isEm1 c && bdryBefore prev c && emailLocal t
  | [] => false

def emailSearchGo (prev : Option Char) : List Char → Bool
  | [] => false
  | c :: t => emailAt prev (c :: t) || emailSearchGo (some c) t

def emailSearch (l : List Char) : Bool := emailSearchGo none l

/-! ### Postal pattern `\b\d{4,5}\s+[A-Z][a-z]+` -/

def capLowHead : List Char → Bool
  | a :: b :: _ => isUpperAlpha a && isLowerAlpha b
  | _ => false

def postalEnd : List Char → Bool
  | c :: t => isWsChar c && capLowHead (t.dropWhile isWsChar)
  | [] => false

def postalAt (prev : Option Char) : List Char → Bool
  | d1 :: d2 :: d3 :: d4 :: t =>
    bdryBefore prev d1 && isDigitChar d1 && isDigitChar d2 && isDigitChar d3 &&
      isDigitChar d4 &&
      (postalEnd t ||
        (match t with
         | d5 :: u => isDigitChar d5 && postalEnd u
         | [] => false))
  | _ => false

def postalSearchGo (prev : Option Char) : List Char → Bool
  | [] => false
  | c :: t => postalAt prev (c :: t) || postalSearchGo (some c) t

def postalSearch (l : List Char) : Bool := postalSearchGo none l

/-- `_is_author_line` (dockling_wrapper.py lines 23–188), check for check
in source order.  The float comparison `symbol_count > len(content)*0.3`
is the exact rational `10*symbol_count > 3*len(content)`. -/
def is_author_line (content : String) : Bool :=
  let contentLower := pyLower content
  let contentStripped := pyStrip content
  if contentStripped.length < 3 then false
  else if authorPat1 content.data || authorPat2 content.data ||
      authorPat3 content.data || authorPat4 content.data then true
  else if nameWordsCheck content then true
  else if problematicKws.any (fun k => containsSub contentLower k) then true
  else if 3 * content.length < 10 * symCount content.data then true
  else if content.data.any (fun c => markerChars.contains c) then true
  else if emailSearch content.data then true
  else if postalSearch content.data then true
  else false

/-! ## `_is_unwanted_content` -/

/-- `\s+` then a digit (remainder ignored: `\d+` needs one digit). -/
def wsThenDigit : List Char → Bool
  | c :: t =>
    isWsChar c &&
      (match t.dropWhile isWsChar with
       | d :: _ => isDigitChar d
       | [] => false)
  | [] => false

/-- `^<kw>\s+\d+` -/
def startKwNum (kw : String) (l : List Char) : Bool :=
  match dropPre kw.data l with
  | some r => wsThenDigit r
  | none => false

/-- `^\d+\s*[a-z]\s+<kw>` -/
def numLetterKw (kw : String) (l : List Char) : Bool :=
  match l with
  | c :: t =>
    isDigitChar c &&
      (match (t.dropWhile isDigitChar).dropWhile isWsChar with
       | a :: r2 =>
         isLowerAlpha a &&
           (match r2 with
            | w :: r3 => isWsChar w && prefMatch kw.data (r3.dropWhile isWsChar)
            | [] => false)
       | [] => false)
  | [] => false

/-- Find `needle` ahead without crossing a newline (the gap is a regex
`.*`); returns the remainder after the leftmost such occurrence. -/
def gapSeek (needle : List Char) : List Char → Option (List Char)
  | [] => dropPre needle []
  | c :: t =>
    match dropPre needle (c :: t) with
    | some r => some r
    | none => if c = '\n' then none else gapSeek needle t

/-- `a.*b` as an unanchored search (the start of `a` is unrestricted, the
gap may not cross a newline). -/
def seq2Go (a b : List Char) : List Char → Bool
  | [] => false
  | c :: t =>
    (match dropPre a (c :: t) with
     | some r => (gapSeek b r).isSome
     | none => false) || seq2Go a b t

def seq2 (a b : String) (l : List Char) : Bool := seq2Go a.data b.data l

/-- `n\s*[=\(]` sought ahead of a point without crossing a newline before
the `n` (the `\s*` itself may contain newlines). -/
def nEqSeek : List Char → Bool
  | [] => false
  | c :: t =>
    (c = 'n' &&
      (match t.dropWhile isWsChar with
       | d :: _ => d = '=' || d = '('
       | [] => false)) || (c ≠ '\n' && nEqSeek t)

/-- `mean.*sem.*n\s*[=\(]`: the search start is unrestricted; taking the
leftmost in-line `sem` after each `mean` position is complete because a
match confines all three anchors to one line. -/
def meanSemGo : List Char → Bool
  | [] => false
  | c :: t =>
    (match dropPre "mean".data (c :: t) with
     | some r =>
       (match gapSeek "sem".data r with
        | some r2 => nEqSeek r2
        | none => false)
     | none => false) || meanSemGo t

/-- `a.*b.*c` as an unanchored search (gaps may not cross newlines). -/
def seq3Go (a b cc : List Char) : List Char → Bool
  | [] => false
  | c :: t =>
    (match dropPre a (c :: t) with
     | some r =>
       (match gapSeek b r with
        | some r2 => (gapSeek cc r2).isSome
        | none => false)
     | none => false) || seq3Go a b cc t

def seq3 (a b c : String) (l : List Char) : Bool := seq3Go a.data b.data c.data l

/-- `p\s*<\s*0\.` at one position. -/
def pvalAt : List Char → Bool
  | c :: t =>
    c = 'p' &&
      (match t.dropWhile isWsChar with
       | '<' :: u =>
         (match u.dropWhile isWsChar with
          | '0' :: '.' :: _ => true
          | _ => false)
       | _ => false)
  | [] => false

def pvalSearch : List Char → Bool
  | [] => false
  | c :: t => pvalAt (c :: t) || pvalSearch t

/-- `\bpo\s*,` at one position. -/
def poAt (prev : Option Char) : List Char → Bool
  | 'p' :: 'o' :: t =>
    bdryBefore prev 'p' &&
      (match t.dropWhile isWsChar with
       | ',' :: _ => true
       | _ => false)
  | _ => false

def poSearchGo (prev : Option Char) : List Char → Bool
  | [] => false
  | c :: t => poAt prev (c :: t) || poSearchGo (some c) t

def dashChars : List Char := ['-', '–', '—']

/-- `\s+\d+\s*[-–—]\s*\d+` (the tail of the compound-range pattern). -/
def wsNumRange : List Char → Bool
  | c :: t =>
    isWsChar c &&
      (match t.dropWhile isWsChar with
       | d :: u =>
         isDigitChar d &&
           (match (u.dropWhile isDigitChar).dropWhile isWsChar with
            | dash :: w =>
              dashChars.contains dash &&
                (match w.dropWhile isWsChar with
                 | e :: _ => isDigitChar e
                 | [] => false)
            | [] => false)
       | [] => false)
  | [] => false

/-- `compounds?\s+\d+\s*[-–—]\s*\d+` at one position. -/
def compRangeAt (l : List Char) : Bool :=
  match dropPre "compound".data l with
  | some r =>
    wsNumRange r ||
      (match r with
       | 's' :: u => wsNumRange u
       | _ => false)
  | none => false

def compRangeSearch : List Char → Bool
  | [] => false
  | c :: t => compRangeAt (c :: t) || compRangeSearch t

/-- `^\d+\s*[-–—]\s*\d+\s*$` (applied to an already-stripped string). -/
def citeRange : List Char → Bool
  | d :: t =>
    isDigitChar d &&
      (match (t.dropWhile isDigitChar).dropWhile isWsChar with
       | dash :: w =>
         dashChars.contains dash &&
           (match w.dropWhile isWsChar with
            | e :: u =>
              isDigitChar e && ((u.dropWhile isDigitChar).dropWhile isWsChar).isEmpty
            | [] => false)
       | [] => false)
  | [] => false

/-- The table/figure pattern battery of `_is_unwanted_content`, in source
order, over `content.lower().strip()`. -/
def tableFigAny (l : List Char) : Bool :=
  startKwNum "table" l || startKwNum "figure" l || startKwNum "fig" l ||
  startKwNum "chart" l || startKwNum "scheme" l || startKwNum "plate" l ||
  numLetterKw "values" l || numLetterKw "assignments" l ||
  seq3 "anti-inflammatory activity" "on" "edema" l ||
  seq2 "carrageenan-induced" "edema" l ||
  meanSemGo l ||
  pvalSearch l ||
  seq2 "student" "test" l ||
  poSearchGo none l ||
  isSubstrL "extraction yield".data l ||
  isSubstrL "fractionation yield".data l

def journalKws : List String :=
  ["received", "accepted", "published online", "publication date", "doi:",
   "issn", "copyright", "journal of", "vol.", "volume", "issue", "pages",
   "pp.", "manuscript"]

/-- `_is_unwanted_content` (dockling_wrapper.py lines 191–264). -/
def is_unwanted_content (content : String) : Bool :=
  let cl := pyStrip (pyLower content)
  if cl.length < 3 then true
  else if tableFigAny cl.data then true
  else if compRangeSearch cl.data then true
  else if citeRange cl.data then true
  else if journalKws.any (fun k => containsSub cl k) then true
  else if cl.length < 10 ∧ cl.data.any isDigitChar then true
  else false

/-! ## The §4.4 text-normalization pipeline

Each `re.sub` of `combine_to_paragraph` (and of the tail of
`extract_enhanced_paper_content` / `extract_full_page_text`) is embedded
as a structurally recursive character scanner with the same
leftmost-match, resume-after-replacement semantics as `re.sub`.
-/

/-- Step 1: `replace("\n", " ")`. -/
def nlToSpace (l : List Char) : List Char :=
  l.map fun c => if c = '\n' then ' ' else c

/-- Step 2 worker: collapse whitespace runs to a single space
(`re.sub(r"\s+", " ", ·)`); `prevWs` tracks whether the previous
character was part of a whitespace run already emitted as `' '`. -/
def collapseWsGo (prevWs : Bool) : List Char → List Char
  | [] => []
  | c :: t =>
    if isWsChar c then
      if prevWs then collapseWsGo true t else ' ' :: collapseWsGo true t
    else c :: collapseWsGo false t

def collapseWs (l : List Char) : List Char := collapseWsGo false l

def isPunctCh (c : Char) : Bool :=
  c.toNat == 46 || c.toNat == 44 || c.toNat == 59 || c.toNat == 58 ||
    c.toNat == 63 || c.toNat == 33

/-- Step 3: `re.sub(r"\s+([.,;:?!])", r"\1", ·)` — drop any whitespace
run standing immediately before punctuation. `pending` holds the
whitespace characters (reversed) not yet known to precede punctuation. -/
def dropWsPunctGo (pending : List Char) : List Char → List Char
  | [] => pending.reverse
  | c :: t =>
    if isWsChar c then dropWsPunctGo (c :: pending) t
    else if isPunctCh c then c :: dropWsPunctGo [] t
    else pending.reverse ++ c :: dropWsPunctGo [] t

def dropWsPunct (l : List Char) : List Char := dropWsPunctGo [] l

mutual

/-- Step 4 workers: `re.sub(r"\s*\|\s*", " | ", ·)`.  `pipeTail` runs
just after emitting `" |"` for a pipe, with its trailing space still
pending while the consumed `\s*` is skipped. -/
def pipeSpaceGo (pending : List Char) : List Char → List Char
  | [] => pending.reverse
  | c :: t =>
    if isWsChar c then pipeSpaceGo (c :: pending) t
    else if c = '|' then ' ' :: '|' :: pipeTail t
    else pending.reverse ++ c :: pipeSpaceGo [] t

def pipeTail : List Char → List Char
  | [] => [' ']
  | c :: t =>
    if isWsChar c then pipeTail t
    else if c = '|' then ' ' :: ' ' :: '|' :: pipeTail t
    else ' ' :: c :: pipeSpaceGo [] t

end

def pipeSpace (l : List Char) : List Char := pipeSpaceGo [] l

mutual

/-- Step 5 workers: `re.sub(r"\s*~\s*", " ", ·)`. -/
def tildeGo (pending : List Char) : List Char → List Char
  | [] => pending.reverse
  | c :: t =>
    if isWsChar c then tildeGo (c :: pending) t
    else if c = '~' then ' ' :: tildeTail t
    else pending.reverse ++ c :: tildeGo [] t

def tildeTail : List Char → List Char
  | [] => []
  | c :: t =>
    if isWsChar c then tildeTail t
    else if c = '~' then ' ' :: tildeTail t
    else c :: tildeGo [] t

end

def tildeDrop (l : List Char) : List Char := tildeGo [] l

/-- Step 6: `re.sub(r"([a-z])([A-Z])", r"\1 \2", ·)` — insert a space at
each lowercase–uppercase seam (non-overlapping, resuming after the
uppercase letter, which cannot begin a new match anyway). -/
def lowUpSplit : List Char → List Char
  | [] => []
  | [c] => [c]
  | a :: b :: t =>
    if isLowerAlpha a && isUpperAlpha b then a :: ' ' :: b :: lowUpSplit t
    else a :: lowUpSplit (b :: t)

/-- Step 7: `re.sub(r"[ŒœŸÿ]", "", ·)`. -/
def ligChars : List Char := ['Œ', 'œ', 'Ÿ', 'ÿ']

def stripLigs (l : List Char) : List Char := l.filter fun c => !ligChars.contains c

mutual

/-- Step 8: `re.sub(r"(\w)-\s+(\w)", r"\1\2", ·)` as a four-state
scanner.  `hyWord w` has seen a word character `w` not yet emitted;
`hyDash w` has additionally seen `-`; `hyWs w pend` has additionally
seen the whitespace run `pend` (reversed).  On `\w` in state `hyWs` the
match is replaced by the two word characters and scanning resumes after
the second; on failure the buffered characters are emitted verbatim
(no match can start inside them, as they are not word characters). -/
def hyGo : List Char → List Char
  | [] => []
  | c :: t => if isWordChar c then hyWord c t else c :: hyGo t

def hyWord (w : Char) : List Char → List Char
  | [] => [w]
  | c :: t =>
    if c = '-' then hyDash w t
    else if isWordChar c then w :: hyWord c t
    else w :: c :: hyGo t

def hyDash (w : Char) : List Char → List Char
  | [] => [w, '-']
  | c :: t =>
    if isWsChar c then hyWs w [c] t
    else if isWordChar c then w :: '-' :: hyWord c t
    else w :: '-' :: c :: hyGo t

def hyWs (w : Char) (pend : List Char) : List Char → List Char
  | [] => w :: '-' :: pend.reverse
  | c :: t =>
    if isWsChar c then hyWs w (c :: pend) t
    else if isWordChar c then w :: c :: hyGo t
    else (w :: '-' :: pend.reverse) ++ c :: hyGo t

end

def hyphenJoin (l : List Char) : List Char := hyGo l

/-- Step 9: `re.sub(r"\s+", " ", ·).strip()`. -/
def finalTidy (l : List Char) : List Char := stripL (collapseWs l)

/-- The full cleanup sequence of `combine_to_paragraph`
(dockling_wrapper.py lines 686–704): steps 1–9 in source order. -/
def normalizeText (s : String) : String :=
  ⟨finalTidy (hyphenJoin (stripLigs (lowUpSplit (tildeDrop (pipeSpace
    (dropWsPunct (collapseWs (nlToSpace s.data))))))))⟩

/-- The cleanup tail of `extract_enhanced_paper_content` (lines
1147–1154) and `extract_full_page_text` (lines 1271–1278): identical to
`normalizeText` except that the lowercase–uppercase step (line 697) is
absent. -/
def cleanBasic (s : String) : String :=
  ⟨finalTidy (hyphenJoin (stripLigs (tildeDrop (pipeSpace
    (dropWsPunct (collapseWs (nlToSpace s.data)))))))⟩

/-! ## `combine_to_paragraph` and the endpoint cascade -/

/-- The output contract `{title, abstract, main_text}`. -/
structure ExtractionResult where
  title : String
  abstract : String
  main_text : String
deriving DecidableEq

/-- `combine_to_paragraph` (lines 642–706) on a well-typed result dict:
strip the three fields, keep the truthy ones, join with spaces,
normalize. -/
def combine_to_paragraph (r : ExtractionResult) : String :=
  let title := pyStrip r.title
  let abstract := pyStrip r.abstract
  let mainText := pyStrip r.main_text
  let combined :=
    (if title ≠ "" then [title] else []) ++
    (if abstract ≠ "" then [abstract] else []) ++
    (if mainText ≠ "" then [mainText] else [])
  normalizeText (joinSpace combined)

/-- The fallback-selection logic of the endpoint `extract_pdf_text`
(lines 767–785), as a function of the combined text and of the values
`extract_full_page_text` / `extract_enhanced_paper_content` would return
on the same document.  Python string truthiness is non-emptiness. -/
def extract_pdf_text_select (combined allText enhancedText : String) : String :=
  if wordCount combined ≤ 10 then
    if allText ≠ "" then allText else combined
  else if wordCount combined < 100 ∨
      ¬ containsSub (pyLower combined) "introduction" ∨
      containsSub (pyLower combined) "phytochemical analysis" then
    if enhancedText ≠ "" ∧ wordCount combined < wordCount enhancedText then enhancedText
    else combined
  else combined

/-! ## Text blocks and `extract_paper_content` -/

/-- One structural unit of the converted document.  `pageNo` is the
resolved page number
`text.get("prov", [{}])[0].get("page_no", 1) if text.get("prov") else 1`
(default 1). -/
structure TextBlock where
  text : String
  label : String
  level : Option Int
  pageNo : Nat
deriving DecidableEq

/-- The document structure handed to the extractors
(`doc_json.get("texts", [])`). -/
structure DoclingDoc where
  texts : List TextBlock
deriving DecidableEq

/-- The section keywords excluded from fallback/enhanced title
candidates. -/
def titleExcludeKws : List String :=
  ["ABSTRACT", "INTRODUCTION", "EXPERIMENTAL", "METHODS", "RESULTS"]

/-- The title loop of `extract_paper_content` (lines 362–385): one
forward scan; a `level == 1` header is accepted via the first branch
(raw text, `"RESULTS"` excluded, length > 5), any other
`section_header` via the fallback branch (stripped text, length > 20,
no section keyword); the first acceptance wins. -/
def findTitle : List TextBlock → String
  | [] => ""
  | b :: rest =>
    if b.label = "section_header" ∧ b.level = some 1 then
      if ¬ containsSub (pyUpper b.text) "RESULTS" ∧ 5 < b.text.length then b.text
      else findTitle rest
    else if b.label = "section_header" ∧ 20 < (pyStrip b.text).length ∧
        titleExcludeKws.all (fun k => !containsSub (pyUpper (pyStrip b.text)) k) then
      pyStrip b.text
    else findTitle rest

/-- Python `str.replace` (all non-overlapping occurrences, left to
right); the fuel argument is the input length, which suffices since the
pattern is nonempty wherever this is used. -/
def replFuel (pat rep : List Char) : Nat → List Char → List Char
  | _, [] => []
  | 0, l => l
  | f + 1, c :: t =>
    match dropPre pat (c :: t) with
    | some r => rep ++ replFuel pat rep f r
    | none => c :: replFuel pat rep f t

def pyReplace (s pat rep : String) : String :=
  ⟨replFuel pat.data rep.data s.data.length s.data⟩

/-- The metadata markers skipped while collecting abstract/main text. -/
def metaIndicators : List String :=
  ["correspondence:", "received:", "funding:", "doi:", "copyright"]

/-- Section names that terminate abstract collection. -/
def abstractStopKws : List String :=
  ["INTRODUCTION", "EXPERIMENTAL", "METHODS", "RESULTS"]

/-- The abstract loop of `extract_paper_content` (lines 387–434).
`collecting` is `collecting_abstract`; the returned list is
`abstract_section` (joined with spaces by the caller).  A stop header
exits the loop (`break`), discarding the rest of the block list. -/
def scanAbstract : List TextBlock → Bool → List String → List String
  | [], _, acc => acc
  | b :: rest, collecting, acc =>
    let content := pyStrip b.text
    if content = "" then scanAbstract rest collecting acc
    else if b.label = "section_header" ∧ pyUpper content = "ABSTRACT" then
      scanAbstract rest true acc
    else if containsSub (pyUpper content) "ABSTRACT:" then
      scanAbstract rest true
        (acc ++ [pyStrip (pyReplace (pyReplace content "ABSTRACT:" "") "Abstract:" "")])
    else if collecting then
      if b.label = "section_header" ∧
          abstractStopKws.any (fun k => containsSub (pyUpper content) k) then acc
      else if b.label ≠ "page_header" ∧ b.label ≠ "page_footer" ∧
          metaIndicators.all (fun k => !containsSub (pyLower content) k) then
        scanAbstract rest collecting (acc ++ [content])
      else scanAbstract rest collecting acc
    else scanAbstract rest collecting acc

def mainStartKws : List String := ["METHODOLOGY", "MATERIALS", "EXPERIMENTAL"]

def mainStopKws : List String :=
  ["RESULTS", "REFERENCES", "BIBLIOGRAPHY", "ACKNOWLEDGMENT"]

/-- The main-text loop of `extract_paper_content` (lines 438–497).
`foundIntro` is `found_intro`; a stop header (reached with
`found_intro` set) breaks out, returning the accumulated list. -/
def scanMain : List TextBlock → Bool → List String → List String
  | [], _, acc => acc
  | b :: rest, foundIntro, acc =>
    let content := pyStrip b.text
    if content = "" ∨ b.label = "page_header" ∨ b.label = "page_footer" then
      scanMain rest foundIntro acc
    else if b.label = "section_header" ∧
        (containsSub (pyUpper content) "INTRODUCTION" ∨
          (containsSub content "|" ∧ containsSub (pyUpper content) "INTRODUCTION")) then
      scanMain rest true (acc ++ [content])
    else if b.label = "section_header" ∧
        mainStartKws.any (fun k => containsSub (pyUpper content) k) then
      scanMain rest true (acc ++ [content])
    else if foundIntro ∧ b.label = "section_header" ∧
        mainStopKws.any (fun k => containsSub (pyUpper content) k) then acc
    else if foundIntro ∧ b.pageNo ≤ 6 ∧
        metaIndicators.all (fun k => !containsSub (pyLower content) k) then
      scanMain rest foundIntro (acc ++ [content])
    else scanMain rest foundIntro acc

/-- The lenient fallback loop of `extract_paper_content`
(lines 499–534), run when both abstract and main text are empty. -/
def scanFallback : List TextBlock → List String
  | [] => []
  | b :: rest =>
    let content := pyStrip b.text
    if content = "" ∨ b.label = "page_header" ∨ b.label = "page_footer" ∨
        content.length < 5 then scanFallback rest
    else if 3 < b.pageNo then scanFallback rest
    else if metaIndicators.any (fun k => containsSub (pyLower content) k) then
      scanFallback rest
    else content :: scanFallback rest

/-- `extract_paper_content` (lines 345–539). -/
def extract_paper_content (doc : DoclingDoc) : ExtractionResult :=
  let texts := doc.texts
  let title := findTitle texts
  let abstract := joinSpace (scanAbstract texts false [])
  let mainList := scanMain texts false []
  let mainList2 := if abstract = "" ∧ mainList = [] then scanFallback texts else mainList
  ⟨title, abstract, joinSpace mainList2⟩

/-! ## `extract_enhanced_paper_content` -/

/-- The enhanced extractor's title scan (lines 812–828): first
`section_header` with stripped text longer than 20 characters and no
section keyword. -/
def enhancedTitle : List TextBlock → String
  | [] => ""
  | b :: rest =>
    if b.label = "section_header" ∧ 20 < (pyStrip b.text).length ∧
        titleExcludeKws.all (fun k => !containsSub (pyUpper (pyStrip b.text)) k) then
      pyStrip b.text
    else enhancedTitle rest

/-- The structured-abstract markers, checked case-sensitively against
the raw (stripped) block text. -/
def structuredAbstractKws : List String :=
  ["Introduction:", "Objective:", "Methodology:", "Results:", "Conclusion:",
   "Background:", "Methods:", "Purpose:", "Aim:", "Summary:"]

/-- The start keywords of the enhanced extractor's main-content state. -/
def enhancedMainKws : List String :=
  ["METHODS", "METHODOLOGY", "MATERIALS", "EXPERIMENTAL", "DISCUSSION", "ANALYSIS"]

/-- The inline metadata/author keyword filter used by each capture state
of the enhanced extractor and by `extract_full_page_text`. -/
def enhancedMetaKws : List String :=
  ["correspondence:", "received:", "funding:", "doi:", "copyright", "@",
   "university", "institute", "department", "college", "school of",
   "faculty of", "laboratory", "lab ", "center for", "centre for",
   "hospital", "medical center", "research center", "orcid", "author",
   "affiliation"]

/-- A block text passes the capture filter: no metadata keyword, not an
author line, not unwanted content. -/
def capturePass (content : String) : Bool :=
  enhancedMetaKws.all (fun k => !containsSub (pyLower content) k) &&
    !is_author_line content && !is_unwanted_content content

/-- The scan state of `extract_enhanced_paper_content` (lines 834–839):
three capture flags and three accumulation buffers. -/
structure EnhState where
  capturingAbstract : Bool
  capturingIntroduction : Bool
  capturingMain : Bool
  abstractContent : List String
  introductionContent : List String
  mainContent : List String
deriving DecidableEq

def enhInit : EnhState := ⟨false, false, false, [], [], []⟩

/-- The tail of one loop iteration of the enhanced extractor
(lines 902–1021), decomposed into its four `if` blocks: first the
RESULTS-style stop check (lines 902–913, which has no `continue`),
then the three capture appends evaluated on the updated flags. -/
def enhStopStep (s : EnhState) (b : TextBlock) (content : String) : EnhState :=
  if s.capturingMain ∧ b.label = "section_header" ∧
      mainStopKws.any (fun k => containsSub (pyUpper content) k) then
    { s with capturingMain := false }
  else s

/-- Lines 915–949: the abstract capture append. -/
def enhAbstractApp (s : EnhState) (b : TextBlock) (content : String) : EnhState :=
  if s.capturingAbstract ∧ b.pageNo ≤ 3 ∧ capturePass content then
    { s with abstractContent := s.abstractContent ++ [content] }
  else s

/-- Lines 951–985: the introduction capture append. -/
def enhIntroApp (s : EnhState) (b : TextBlock) (content : String) : EnhState :=
  if s.capturingIntroduction ∧ b.pageNo ≤ 5 ∧ capturePass content then
    { s with introductionContent := s.introductionContent ++ [content] }
  else s

/-- Lines 987–1021: the main capture append. -/
def enhMainApp (s : EnhState) (b : TextBlock) (content : String) : EnhState :=
  if s.capturingMain ∧ b.pageNo ≤ 6 ∧ capturePass content then
    { s with mainContent := s.mainContent ++ [content] }
  else s

def enhCaptureStep (s : EnhState) (b : TextBlock) (content : String) : EnhState :=
  enhMainApp (enhIntroApp (enhAbstractApp (enhStopStep s b content) b content)
    b content) b content

/-- One iteration of the enhanced extractor's block loop
(lines 841–1021), in source order: skip / ABSTRACT header /
structured-abstract marker / INTRODUCTION header / main-section header
(each with `continue`), then the RESULTS-style stop check (no
`continue`), then the three capture appends on the updated flags. -/
def enhStep (s : EnhState) (b : TextBlock) : EnhState :=
  let content := pyStrip b.text
  if content = "" ∨ b.label = "page_header" ∨ b.label = "page_footer" ∨
      content.length < 3 then s
  else if b.label = "section_header" ∧ pyUpper content = "ABSTRACT" then
    { s with capturingAbstract := true }
  else if s.capturingAbstract ∧
      structuredAbstractKws.any (fun k => containsSub content k) then
    { s with abstractContent := s.abstractContent ++ [content] }
  else if b.label = "section_header" ∧
      (containsSub (pyUpper content) "INTRODUCTION" ∨
        (containsSub content "|" ∧ containsSub (pyUpper content) "INTRODUCTION")) then
    { s with capturingAbstract := false, capturingIntroduction := true }
  else if b.label = "section_header" ∧
      enhancedMainKws.any (fun k => containsSub (pyUpper content) k) then
    { s with capturingIntroduction := false, capturingMain := true }
  else enhCaptureStep s b content

/-- The lower-cased word set of a string (`set(s.lower().split())`). -/
def wordSet (s : String) : List (List Char) := (splitWsL (pyLower s).data).dedup

/-- `len(title_words & content_words)`. -/
def titleInterCount (title c : String) : Nat :=
  ((wordSet c).filter (fun w => (wordSet title).contains w)).length

/-- The title-deduplication pass of the enhanced extractor
(lines 1036–1047): when a title exists and more than one fragment was
assembled, keep the leading title and those later fragments whose
word-set overlap with the title — measured against the title's word-set
size, Python `len(title_words & content_words) / max(len(title_words), 1)`
— stays below 0.7 (embedded as the exact rational comparison). -/
def dedupTitleContent (title : String) (content : List String) : List String :=
  if title ≠ "" ∧ 1 < content.length then
    title :: (content.drop 1).filter
      (fun c => 10 * titleInterCount title c < 7 * max (wordSet title).length 1)
  else content

/-- The keyword list of the enhanced extractor's low-yield rebuild scan
(lines 1074–1103). -/
def enhancedFallbackKws : List String :=
  ["correspondence:", "received:", "funding:", "doi:", "copyright",
   "journal of", "volume", "issue", "@",
   "university", "institute", "department", "college", "school of",
   "faculty of", "laboratory", "lab ", "center for", "centre for",
   "hospital", "medical center", "research center", "orcid", "author",
   "affiliation"]

/-- Journal-name fragments used by the rebuild scan. -/
def journalNameFrags : List String :=
  ["phytochemical analysis", "john wiley", "doi.org", "elsevier", "springer"]

/-- Python `str.isdigit()` (ASCII model). -/
def pyIsDigit (s : String) : Bool := !s.data.isEmpty && s.data.all isDigitChar

/-- The rebuild scan of the enhanced extractor (lines 1055–1127), run
when fewer than 5 fragments were assembled. -/
def enhancedRebuildScan : List TextBlock → List String
  | [] => []
  | b :: rest =>
    let content := pyStrip b.text
    if 4 < b.pageNo then enhancedRebuildScan rest
    else if content = "" ∨ b.label = "page_header" ∨ b.label = "page_footer" ∨
        content.length < 5 then enhancedRebuildScan rest
    else if enhancedFallbackKws.any (fun k => containsSub (pyLower content) k) ∨
        is_author_line content ∨ is_unwanted_content content then
      enhancedRebuildScan rest
    else if pyIsDigit content ∨
        (content.length < 50 ∧
          journalNameFrags.any (fun k => containsSub (pyLower content) k)) then
      enhancedRebuildScan rest
    else content :: enhancedRebuildScan rest

/-- Python `s.split(sep)` for a nonempty separator (fuelled by the
input length, which each step consumes). -/
def splitOnGo (sep : List Char) : Nat → List Char → List Char → List (List Char)
  | _, cur, [] => [cur.reverse]
  | 0, cur, l => [cur.reverse ++ l]
  | f + 1, cur, c :: t =>
    match dropPre sep (c :: t) with
    | some r => cur.reverse :: splitOnGo sep f [] r
    | none => splitOnGo sep f (c :: cur) t

def pySplitOn (s sep : String) : List String :=
  (splitOnGo sep.data s.data.length [] s.data).map fun l => ⟨l⟩

/-- The repeated-sentence filter of the enhanced extractor
(lines 1133–1144): keep a sentence if its stripped lower-casing is
longer than 10 characters and unseen. -/
def sentenceDedupGo (seen : List String) : List String → List String
  | [] => []
  | s :: rest =>
    let clean := pyLower (pyStrip s)
    if 10 < clean.length ∧ ¬ seen.contains clean then
      s :: sentenceDedupGo (clean :: seen) rest
    else sentenceDedupGo seen rest

/-- `extract_enhanced_paper_content` (lines 796–1156).  Note the source
appends the title twice (lines 830 and 1024) before deduplication. -/
def extract_enhanced_paper_content (doc : DoclingDoc) : String :=
  let texts := doc.texts
  let title := enhancedTitle texts
  let st := texts.foldl enhStep enhInit
  let assembled :=
    (if title ≠ "" then [title] else []) ++
    (if title ≠ "" then [title] else []) ++
    st.abstractContent ++ st.introductionContent ++ st.mainContent.take 8
  let deduped := dedupTitleContent title assembled
  let rebuilt :=
    if deduped.length < 5 then
      (if title ≠ "" then [title] else []) ++ enhancedRebuildScan texts
    else deduped
  let combined := joinSpace rebuilt
  let uniq := sentenceDedupGo [] (pySplitOn combined ". ")
  cleanBasic (String.intercalate ". " uniq)

/-! ## `extract_full_page_text` -/

/-- The early-pages loop of `extract_full_page_text`
(lines 1183–1225): blocks on pages ≤ 3 passing the capture filter. -/
def earlyPageScan : List TextBlock → List String
  | [] => []
  | b :: rest =>
    if b.pageNo ≤ 3 then
      let content := pyStrip b.text
      if content ≠ "" ∧ b.label ≠ "page_header" ∧ b.label ≠ "page_footer" ∧
          capturePass content then
        content :: earlyPageScan rest
      else earlyPageScan rest
    else earlyPageScan rest

/-- The first-30-blocks fallback loop of `extract_full_page_text`
(lines 1228–1265), applied to `texts[:30]` with no page condition. -/
def first30Scan : List TextBlock → List String
  | [] => []
  | b :: rest =>
    let content := pyStrip b.text
    if content ≠ "" ∧ b.label ≠ "page_header" ∧ b.label ≠ "page_footer" ∧
        capturePass content then
      content :: first30Scan rest
    else first30Scan rest

/-- `extract_full_page_text` (lines 1159–1280). -/
def extract_full_page_text (doc : DoclingDoc) : String :=
  let texts := doc.texts
  let early := earlyPageScan texts
  let early2 :=
    if early = [] ∧ texts ≠ [] then first30Scan (texts.take 30) else early
  cleanBasic (joinSpace early2)

/-! ## Dynamically-typed model of `combine_to_paragraph` for totality

`combine_to_paragraph` is the one core function whose Python input is
an arbitrary value rather than document blocks; its field values have
`.strip()` called on them, which raises `AttributeError` on non-string
values.  The dynamic model makes those raises explicit as `Except`
errors. -/

inductive PyVal where
  | vstr (s : String)
  | vint (n : Int)
  | vnone
deriving DecidableEq

/-- The argument of `combine_to_paragraph`: either not a dict (caught
by the `isinstance` guard) or a dict with optional `title` /
`abstract` / `main_text` entries. -/
inductive CombineInput where
  | notDict
  | dict (title abstract mainText : Option PyVal)
deriving DecidableEq

/-- `v.strip()` on a dynamic value. -/
def pyStripVal : PyVal → Except String String
  | .vstr s => .ok (pyStrip s)
  | .vint _ => .error "AttributeError: int object has no attribute strip"
  | .vnone => .error "AttributeError: NoneType object has no attribute strip"

/-- `combine_to_paragraph` on a dynamically-typed argument
(lines 642–706): `.get(key, "")` then `.strip()` on each field, which
raises for a present non-string value. -/
def combine_to_paragraph_dyn (input : CombineInput) : Except String String :=
  match input with
  | .notDict => .ok "Error: Input must be a dictionary."
  | .dict t a m => do
    let tv ← pyStripVal (t.getD (.vstr ""))
    let av ← pyStripVal (a.getD (.vstr ""))
    let mv ← pyStripVal (m.getD (.vstr ""))
    .ok (normalizeText (joinSpace
      ((if tv ≠ "" then [tv] else []) ++
       (if av ≠ "" then [av] else []) ++
       (if mv ≠ "" then [mv] else []))))

/-! ## Specification-side definitions

These follow the wording of the specification (for refinement-style
claims) rather than the source; the theorems below relate them to the
source embeddings. -/

/-- A block qualifying as a title in either branch of the title loop:
a level-1 `section_header` with the level-1 conditions, or any other
`section_header` with the fallback conditions. -/
def titleCandidate (b : TextBlock) : Bool :=
  (b.label == "section_header" && b.level == some 1 &&
    !containsSub (pyUpper b.text) "RESULTS" && decide (5 < b.text.length)) ||
  (b.label == "section_header" && !(b.level == some 1) &&
    decide (20 < (pyStrip b.text).length) &&
    titleExcludeKws.all (fun k => !containsSub (pyUpper (pyStrip b.text)) k))

/-- The text taken from a qualifying title block: raw for the level-1
branch, stripped for the fallback branch. -/
def titleValue (b : TextBlock) : String :=
  if b.level = some 1 then b.text else pyStrip b.text

/-- "First match wins": the title of the first qualifying block in a
single forward scan, or `""`. -/
def firstQualifyingTitle (l : List TextBlock) : String :=
  ((l.find? titleCandidate).map titleValue).getD ""

/-- Spec wording for the deduplication pass: the fragment's overlap with
the title covers at least 70 % of the *title's* word set
(`len(title_words & content_words) / max(len(title_words), 1) ≥ 0.7`,
as the exact rational comparison). -/
def sharesTitleWordSet (title c : String) : Prop :=
  7 * max (wordSet title).length 1 ≤ 10 * titleInterCount title c

/-- Mutual exclusivity of the three capture flags. -/
def MutexFlags (s : EnhState) : Prop :=
  ¬ (s.capturingAbstract = true ∧ s.capturingIntroduction = true) ∧
  ¬ (s.capturingAbstract = true ∧ s.capturingMain = true) ∧
  ¬ (s.capturingIntroduction = true ∧ s.capturingMain = true)

/-- A block that fires the enhanced extractor's ABSTRACT transition. -/
def TrigA (b : TextBlock) : Prop :=
  b.label = "section_header" ∧ pyUpper (pyStrip b.text) = "ABSTRACT"

/-- A block that can fire the INTRODUCTION transition. -/
def TrigI (b : TextBlock) : Prop :=
  b.label = "section_header" ∧
    containsSub (pyUpper (pyStrip b.text)) "INTRODUCTION" = true

/-- A block that can fire the main-section transition (it must not also
name INTRODUCTION, which takes priority in the branch order). -/
def TrigM (b : TextBlock) : Prop :=
  b.label = "section_header" ∧
    enhancedMainKws.any (fun k => containsSub (pyUpper (pyStrip b.text)) k) = true ∧
    containsSub (pyUpper (pyStrip b.text)) "INTRODUCTION" = false

/-- The block text carries no structured-abstract marker, so it cannot
be consumed by the structured-abstract branch while the abstract flag is
set. -/
def KwFree (b : TextBlock) : Prop :=
  structuredAbstractKws.any (fun k => containsSub (pyStrip b.text) k) = false

/-- Canonical document order of the transition headers: no ABSTRACT
trigger after an INTRODUCTION or main-section trigger, and no
INTRODUCTION trigger after a main-section trigger. -/
def TrigOrder (b1 b2 : TextBlock) : Prop :=
  ((TrigI b1 ∨ TrigM b1) → ¬ TrigA b2) ∧ (TrigM b1 → ¬ TrigI b2)

/-- When both an ABSTRACT and a main-section trigger occur, some
unconsumable INTRODUCTION trigger occurs as well (so the abstract flag
is cleared before the main flag is set). -/
def BridgeOk (l : List TextBlock) : Prop :=
  (∃ b ∈ l, TrigA b) → (∃ b ∈ l, TrigM b) → ∃ b ∈ l, TrigI b ∧ KwFree b

/-- The characters excluded from the amended idempotence claim: the
hyphen (rejoin step), the tilde (removal step) and the ligature set
(stripping step) each drive a repair step that can manufacture new
seams for a second normalization pass. The pipe's padding step, by
contrast, is proved harmless. -/
def normSensitiveChars : List Char := ['-', '~', 'Œ', 'œ', 'Ÿ', 'ÿ']

def normInsensitive (s : String) : Bool :=
  s.data.all fun c => !normSensitiveChars.contains c


end Marcus

namespace Marcus

def pairsOk (q : Char → Char → Bool) : List Char → Bool
  | [] => true
  | [_] => true
  | a :: b :: t => q a b && pairsOk q (b :: t)

def noTwoWs (a b : Char) : Bool := !(isWsChar a && isWsChar b)

def noWsPunct (a b : Char) : Bool := !(isWsChar a && isPunctCh b)

def noLowUp (a b : Char) : Bool := !(isLowerAlpha a && isUpperAlpha b)

def onlySpaceWs (l : List Char) : Bool := l.all fun c => !isWsChar c || c == ' '

/-- Delete every whitespace character directly preceding punctuation
(the effect of `dropWsPunct` on inputs with no two adjacent
whitespace characters). -/
def delWsPunct : List Char → List Char
  | [] => []
  | [c] => [c]
  | c :: d :: t =>
    if isWsChar c && isPunctCh d then delWsPunct (d :: t)
    else c :: delWsPunct (d :: t)

/-- Left pipe padding: a pipe is directly preceded by a space. -/
def padL (a b : Char) : Bool := !(b == '|') || (a == ' ')

/-- Right pipe padding: a pipe is directly followed by a space. -/
def padR (a b : Char) : Bool := !(a == '|') || (b == ' ')

/-- Consecutive-triple check, the three-character analogue of pairsOk. -/
def triplesOk (r : Char → Char → Char → Bool) : List Char → Bool
  | a :: b :: c :: t => r a b c && triplesOk r (b :: c :: t)
  | _ => true

/-- Whitespace directly before punctuation occurs only after a pipe. -/
def wsPunct3 (a b c : Char) : Bool := !(isWsChar b && isPunctCh c) || (a == '|')

def padF (l : List Char) : List Char :=
  match l with
  | c :: _ => if c = '|' then [' '] else []
  | [] => []

def padB (l : List Char) : List Char :=
  if l.getLast? = some '|' then [' '] else []

/-- The fused composition of the pipe-padding and whitespace-collapse steps. -/
def cA (v : List Char) : List Char := collapseWsGo false (pipeSpaceGo [] v)

def cC (v : List Char) : List Char := collapseWsGo false (pipeTail v)

/-- Invariant bundle satisfied by the first normalization pass's output. -/
def OutP (l : List Char) : Prop :=
  pairsOk padL l = true ∧ pairsOk padR l = true ∧ pairsOk noTwoWs l = true ∧
  triplesOk wsPunct3 l = true ∧ onlySpaceWs l = true

def headWsPunctFree (u : List Char) : Prop :=
  ∀ a b r, u = a :: b :: r → (isWsChar a && isPunctCh b) = false

/-- The normal form produced by one pass of normalizeText. -/
def normMid (l : List Char) : List Char :=
  stripL (lowUpSplit (cA (delWsPunct (collapseWs (nlToSpace l)))))

/-- Invariant carried through the enhanced extractor's scan. -/
def EnhInv (s : EnhState) (rest : List TextBlock) : Prop :=
  MutexFlags s ∧
  ((s.capturingIntroduction = true ∨ s.capturingMain = true) →
    ∀ b ∈ rest, ¬ TrigA b) ∧
  (s.capturingMain = true → ∀ b ∈ rest, ¬ TrigI b) ∧
  (s.capturingAbstract = true →
    (∃ b ∈ rest, TrigM b) → ∃ b ∈ rest, TrigI b ∧ KwFree b) ∧
  List.Pairwise TrigOrder rest ∧
  BridgeOk rest

def flagsEq (s2 s : EnhState) : Prop :=
  s2.capturingAbstract = s.capturingAbstract ∧
  s2.capturingIntroduction = s.capturingIntroduction ∧
  (s2.capturingMain = true → s.capturingMain = true)

instance (b : TextBlock) : Decidable (TrigA b) := by unfold TrigA; infer_instance

instance (b : TextBlock) : Decidable (TrigI b) := by unfold TrigI; infer_instance

instance (b : TextBlock) : Decidable (TrigM b) := by unfold TrigM; infer_instance

instance (b : TextBlock) : Decidable (KwFree b) := by unfold KwFree; infer_instance

instance : DecidableRel TrigOrder := fun a b => by
  unfold TrigOrder
  infer_instance

instance (l : List TextBlock) : Decidable (BridgeOk l) := by
  unfold BridgeOk
  infer_instance

end Marcus

namespace Marcus

theorem toNat_ofNat_small (n : Nat) (h : n < 55296) : (Char.ofNat n).toNat = n := by
  have hv : n.isValidChar := Or.inl h
  simp only [Char.ofNat, hv, dif_pos]
  rfl

theorem char_toNat_lt (c : Char) : c.toNat < 1114112 := by
  have h : c.toNat = c.val.toNat := rfl
  rcases c.valid with h2 | h2 <;> omega

theorem char_eq_of_toNat {a b : Char} (h : a.toNat = b.toNat) : a = b :=
  Char.eq_of_val_eq (UInt32.ext h)

theorem lowerChar_toNat (c : Char) :
    (lowerChar c).toNat =
      if 65 ≤ c.toNat ∧ c.toNat ≤ 90 then c.toNat + 32 else c.toNat := by
  unfold lowerChar
  split
  · next h => exact toNat_ofNat_small _ (by omega)
  · rfl

theorem lowerChar_lowerChar (c : Char) : lowerChar (lowerChar c) = lowerChar c := by
  apply char_eq_of_toNat
  rw [lowerChar_toNat (lowerChar c)]
  by_cases h : 65 ≤ c.toNat ∧ c.toNat ≤ 90
  · have h1 : (lowerChar c).toNat = c.toNat + 32 := by rw [lowerChar_toNat, if_pos h]
    rw [if_neg (by omega)]
  · have h1 : (lowerChar c).toNat = c.toNat := by rw [lowerChar_toNat, if_neg h]
    rw [h1, if_neg h]

theorem isWsChar_lowerChar (c : Char) : isWsChar (lowerChar c) = isWsChar c := by
  by_cases h : 65 ≤ c.toNat ∧ c.toNat ≤ 90
  · have h1 : (lowerChar c).toNat = c.toNat + 32 := by rw [lowerChar_toNat, if_pos h]
    simp only [isWsChar, h1]
    have key : ∀ m : Nat, 97 ≤ m → m ≤ 122 →
        ((m == 32 || m == 9 || m == 10 || m == 13 || m == 11 || m == 12) = false) := by
      intro m hm1 hm2
      simp only [Bool.or_eq_false_iff, beq_eq_false_iff_ne, ne_eq]
      omega
    rw [key _ (by omega) (by omega)]
    have key2 : ∀ m : Nat, 65 ≤ m → m ≤ 90 →
        ((m == 32 || m == 9 || m == 10 || m == 13 || m == 11 || m == 12) = false) := by
      intro m hm1 hm2
      simp only [Bool.or_eq_false_iff, beq_eq_false_iff_ne, ne_eq]
      omega
    rw [key2 _ h.1 h.2]
  · have h1 : lowerChar c = c := by
      apply char_eq_of_toNat; rw [lowerChar_toNat, if_neg h]
    rw [h1]

theorem pyLower_pyLower (s : String) : pyLower (pyLower s) = pyLower s := by
  simp only [pyLower, List.map_map]
  congr 1
  exact List.map_congr_left fun c _ => lowerChar_lowerChar c

theorem dropWhile_map_lower (l : List Char) :
    (l.map lowerChar).dropWhile isWsChar = (l.dropWhile isWsChar).map lowerChar := by
  induction l with
  | nil => rfl
  | cons c t ih =>
    simp only [List.map_cons, List.dropWhile_cons, isWsChar_lowerChar]
    split
    · exact ih
    · simp

theorem stripL_map_lower (l : List Char) :
    stripL (l.map lowerChar) = (stripL l).map lowerChar := by
  simp only [stripL, dropWhile_map_lower, ← List.map_reverse, dropWhile_map_lower]

theorem pyStrip_pyLower (s : String) : pyStrip (pyLower s) = pyLower (pyStrip s) := by
  simp only [pyStrip, pyLower, stripL_map_lower]

-- strip idempotence machinery
theorem dropWhile_first_false (p : Char → Bool) :
    ∀ (l : List Char) c t, l.dropWhile p = c :: t → p c = false := by
  intro l
  induction l with
  | nil => intro c t h; simp [List.dropWhile] at h
  | cons a u ih =>
    intro c t h
    rw [List.dropWhile_cons] at h
    split at h
    · exact ih _ _ h
    · cases h
      simp_all

theorem dropWhile_eq_self_of_head (p : Char → Bool) (l : List Char)
    (h : ∀ c t, l = c :: t → p c = false) : l.dropWhile p = l := by
  cases l with
  | nil => rfl
  | cons c t => rw [List.dropWhile_cons, h c t rfl]; simp

theorem exists_append_dropWhile (p : Char → Bool) (l : List Char) :
    ∃ u, l = u ++ l.dropWhile p := by
  induction l with
  | nil => exact ⟨[], rfl⟩
  | cons c t ih =>
    rw [List.dropWhile_cons]
    split
    · rcases ih with ⟨u, hu⟩
      exact ⟨c :: u, by simp [← hu]⟩
    · exact ⟨[], rfl⟩

end Marcus

namespace Marcus

theorem stripL_idem (l : List Char) : stripL (stripL l) = stripL l := by
  unfold stripL
  have h1 : ((l.dropWhile isWsChar).reverse.dropWhile isWsChar).reverse.dropWhile isWsChar =
      ((l.dropWhile isWsChar).reverse.dropWhile isWsChar).reverse := by
    apply dropWhile_eq_self_of_head
    intro c t hct
    rcases exists_append_dropWhile isWsChar (l.dropWhile isWsChar).reverse with ⟨u, hu⟩
    have hA : l.dropWhile isWsChar = c :: (t ++ u.reverse) := by
      have := congrArg List.reverse hu
      rw [List.reverse_reverse, List.reverse_append, hct] at this
      simpa using this
    exact dropWhile_first_false isWsChar l _ _ hA
  rw [h1, List.reverse_reverse]
  have h2 : ((l.dropWhile isWsChar).reverse.dropWhile isWsChar).dropWhile isWsChar =
      (l.dropWhile isWsChar).reverse.dropWhile isWsChar :=
    dropWhile_eq_self_of_head _ _ fun c t hct =>
      dropWhile_first_false isWsChar (l.dropWhile isWsChar).reverse _ _ hct
  rw [h2]

theorem pyStrip_pyStrip (s : String) : pyStrip (pyStrip s) = pyStrip s := by
  simp only [pyStrip, stripL_idem]

/-- C10 core equality. -/
theorem c10_key (s : String) :
    pyStrip (pyLower (pyLower (pyStrip s))) = pyStrip (pyLower s) := by
  rw [pyLower_pyLower, pyStrip_pyLower, show pyStrip (pyStrip s) = pyStrip s from pyStrip_pyStrip s, ← pyStrip_pyLower]

/-- C10: is_unwanted_content depends only on the lower-cased,
trimmed form of its input: for every string s it equals itself
applied to pyLower (pyStrip s). -/
theorem C10_case_trim_invariant (s : String) :
    is_unwanted_content s = is_unwanted_content (pyLower (pyStrip s)) := by
  simp only [is_unwanted_content]
  rw [c10_key]

theorem stripL_length_le (l : List Char) : (stripL l).length ≤ l.length := by
  unfold stripL
  rcases exists_append_dropWhile isWsChar l with ⟨u, hu⟩
  rcases exists_append_dropWhile isWsChar (l.dropWhile isWsChar).reverse with ⟨v, hv⟩
  have h1 : (l.dropWhile isWsChar).length ≤ l.length := by
    conv_rhs => rw [hu]
    simp
  have h2 : ((l.dropWhile isWsChar).reverse.dropWhile isWsChar).length ≤
      (l.dropWhile isWsChar).length := by
    conv_rhs => rw [show (l.dropWhile isWsChar).length =
      (l.dropWhile isWsChar).reverse.length by simp, hv]
    simp
  simp only [List.length_reverse]
  omega

/-- C2: the shared length floor: every string shorter than 3
characters is rejected by is_author_line (which returns false, not
true as claimed) and flagged as unwanted by is_unwanted_content
(which returns true). -/
theorem C2_length_floor (s : String) (h : s.length < 3) :
    is_author_line s = false ∧ is_unwanted_content s = true := by
  have hs : s.length = s.data.length := rfl
  constructor
  · simp only [is_author_line]
    rw [if_pos]
    have := stripL_length_le s.data
    show (pyStrip s).length < 3
    have h2 : (pyStrip s).length = (stripL s.data).length := rfl
    omega
  · simp only [is_unwanted_content]
    rw [if_pos]
    have := stripL_length_le (pyLower s).data
    have h3 : (pyLower s).data.length = s.data.length := by
      simp [pyLower]
    have h2 : (pyStrip (pyLower s)).length = (stripL (pyLower s).data).length := rfl
    show (pyStrip (pyLower s)).length < 3
    omega

end Marcus

namespace Marcus

/-- C1: combine_to_paragraph is total on well-typed inputs: a
non-dict input yields the error string, and a dict whose three
fields are strings or missing yields the normalized combination of
the present fields (totality fails on non-string field values: see
the counterexample). -/
theorem C1_combine_refinement :
    combine_to_paragraph_dyn .notDict = .ok "Error: Input must be a dictionary." ∧
    ∀ t a m : Option String,
      combine_to_paragraph_dyn
        (.dict (t.map PyVal.vstr) (a.map PyVal.vstr) (m.map PyVal.vstr)) =
      .ok (combine_to_paragraph ⟨t.getD "", a.getD "", m.getD ""⟩) := by
  refine ⟨rfl, ?_⟩
  intro t a m
  rcases t with _ | t <;> rcases a with _ | a <;> rcases m with _ | m <;> rfl

theorem c4_test1 : ∀ c fp fp2 e : String, 10 < wordCount c →
    extract_pdf_text_select c fp e = extract_pdf_text_select c fp2 e := by
  intro c fp fp2 e h
  have hn : ¬ wordCount c ≤ 10 := by omega
  unfold extract_pdf_text_select
  rw [if_neg hn, if_neg hn]

theorem c4_test2 : ∀ c fp e : String, wordCount c ≤ 10 →
    extract_pdf_text_select c fp e = if fp ≠ "" then fp else c := by
  intro c fp e h
  unfold extract_pdf_text_select
  rw [if_pos h]

theorem c4_test3 : ∀ c fp e : String, 10 < wordCount c → wordCount e ≤ wordCount c →
    extract_pdf_text_select c fp e = c := by
  intro c fp e h h2
  have hn : ¬ wordCount c ≤ 10 := by omega
  unfold extract_pdf_text_select
  rw [if_neg hn]
  split
  · rw [if_neg]
    rintro ⟨-, h3⟩
    omega
  · rfl

theorem c4_test4 : ∀ c fp e : String, 10 < wordCount c →
    (wordCount c < 100 ∨ ¬ containsSub (pyLower c) "introduction" ∨
      containsSub (pyLower c) "phytochemical analysis") →
    e ≠ "" → wordCount c < wordCount e →
    extract_pdf_text_select c fp e = e := by
  intro c fp e h hcond hne hlt
  have hn : ¬ wordCount c ≤ 10 := by omega
  unfold extract_pdf_text_select
  rw [if_neg hn, if_pos hcond, if_pos ⟨hne, hlt⟩]

-- C6
theorem contains_nonempty {s k : String} (h : containsSub s k = true)
    (hk : k.data ≠ []) : s.data ≠ [] := by
  intro hs
  rcases hkd : k.data with _ | ⟨c, t⟩
  · exact hk hkd
  · unfold containsSub at h
    rw [hs, hkd] at h
    simp [isSubstrL, prefMatch] at h

/-- C6: once abstract collection is active, a section_header whose
stripped upper-cased text contains a stop keyword (INTRODUCTION,
EXPERIMENTAL, METHODS or RESULTS) but not the inline marker
"ABSTRACT:" terminates collection immediately with the accumulator
unchanged: the header is not appended and no later block
contributes. -/
theorem C6_abstract_stop (b : TextBlock) (rest : List TextBlock) (acc : List String)
    (hl : b.label = "section_header")
    (hstop : abstractStopKws.any (fun k => containsSub (pyUpper (pyStrip b.text)) k) = true)
    (hnotinline : containsSub (pyUpper (pyStrip b.text)) "ABSTRACT:" = false) :
    scanAbstract (b :: rest) true acc = acc := by
  have hcontent : pyStrip b.text ≠ "" := by
    rw [List.any_eq_true] at hstop
    rcases hstop with ⟨k, hk, hck⟩
    intro hempty
    have hup : pyUpper (pyStrip b.text) = "" := by rw [hempty]; rfl
    rw [hup] at hck
    fin_cases hk <;> simp_all [containsSub, isSubstrL, prefMatch]
  have hnotabs : ¬ (b.label = "section_header" ∧ pyUpper (pyStrip b.text) = "ABSTRACT") := by
    rintro ⟨-, habs⟩
    rw [habs] at hstop
    revert hstop
    decide
  unfold scanAbstract
  rw [if_neg hcontent, if_neg hnotabs, if_neg (by rw [hnotinline]; exact fun h => nomatch h)]
  rw [if_pos rfl]
  rw [if_pos ⟨hl, hstop⟩]

end Marcus

namespace Marcus

theorem c7_mem (title : String) (frags : List String) (c : String)
    (ht : title ≠ "") (hlen : 1 < frags.length) (hc : c ∈ frags.drop 1) (hne : c ≠ title) :
    (c ∈ dedupTitleContent title frags ↔ ¬ sharesTitleWordSet title c) := by
  unfold dedupTitleContent
  rw [if_pos ⟨ht, hlen⟩]
  simp only [List.mem_cons, hne, false_or, List.mem_filter, hc, true_and,
    decide_eq_true_eq, sharesTitleWordSet]
  omega

theorem c7_head (title : String) (frags : List String)
    (ht : title ≠ "") (hlen : 1 < frags.length) :
    (dedupTitleContent title frags).head? = some title := by
  unfold dedupTitleContent
  rw [if_pos ⟨ht, hlen⟩]
  rfl

/-- C5: title detection is a single first-match scan: findTitle
returns the value of the first block in document order satisfying
either the level-1 rule or the long-header fallback rule; a level-1
header gets no priority over an earlier qualifying fallback header
(the claimed preference is refuted by the counterexample). -/
theorem C5_title_first_match : ∀ l : List TextBlock, findTitle l = firstQualifyingTitle l := by
  intro l
  induction l with
  | nil => rfl
  | cons b t ih =>
    unfold findTitle firstQualifyingTitle
    rw [List.find?_cons]
    by_cases hl : b.label = "section_header"
    · by_cases hv : b.level = some 1
      · by_cases hq : ¬ containsSub (pyUpper b.text) "RESULTS" ∧ 5 < b.text.length
        · rw [if_pos ⟨hl, hv⟩, if_pos hq]
          have hq1 := hq.1
          rw [Bool.not_eq_true] at hq1
          have hcand : titleCandidate b = true := by
            simp [titleCandidate, hl, hv, hq1, hq.2]
          rw [hcand]
          simp [titleValue, hv]
        · rw [if_pos ⟨hl, hv⟩, if_neg hq]
          have hcand : titleCandidate b = false := by
            apply Bool.eq_false_iff.mpr
            intro htrue
            simp only [titleCandidate, Bool.or_eq_true, Bool.and_eq_true, beq_iff_eq,
              Bool.not_eq_true', beq_eq_false_iff_ne, decide_eq_true_eq] at htrue
            rcases htrue with ⟨⟨⟨-, -⟩, hres⟩, hlen5⟩ | ⟨⟨⟨-, hlev⟩, -⟩, -⟩
            · exact hq ⟨by simp [hres], hlen5⟩
            · exact hlev hv
          rw [hcand]
          exact ih
      · rw [if_neg (fun hh => hv hh.2)]
        by_cases hq2 : 20 < (pyStrip b.text).length ∧
            titleExcludeKws.all (fun k => !containsSub (pyUpper (pyStrip b.text)) k) = true
        · rw [if_pos ⟨hl, hq2.1, hq2.2⟩]
          have hcand : titleCandidate b = true := by
            simp [titleCandidate, hl, hq2.1, hq2.2, beq_eq_false_iff_ne, hv]
          rw [hcand]
          simp [titleValue, hv]
        · rw [if_neg (fun hh => hq2 ⟨hh.2.1, hh.2.2⟩)]
          have hcand : titleCandidate b = false := by
            apply Bool.eq_false_iff.mpr
            intro htrue
            simp only [titleCandidate, Bool.or_eq_true, Bool.and_eq_true, beq_iff_eq,
              Bool.not_eq_true', beq_eq_false_iff_ne, decide_eq_true_eq] at htrue
            rcases htrue with ⟨⟨⟨-, hlev⟩, -⟩, -⟩ | ⟨⟨⟨-, -⟩, h20⟩, hall⟩
            · exact hv hlev
            · exact hq2 ⟨h20, hall⟩
          rw [hcand]
          exact ih
    · rw [if_neg (fun hh => hl hh.1), if_neg (fun hh => hl hh.1)]
      have hcand : titleCandidate b = false := by
        apply Bool.eq_false_iff.mpr
        intro htrue
        simp only [titleCandidate, Bool.or_eq_true, Bool.and_eq_true, beq_iff_eq] at htrue
        rcases htrue with ⟨⟨⟨hlab, -⟩, -⟩, -⟩ | ⟨⟨⟨hlab, -⟩, -⟩, -⟩ <;> exact hl hlab
      rw [hcand]
      exact ih

end Marcus

namespace Marcus

theorem prefMatch_length {n h : List Char} (hp : prefMatch n h = true) :
    n.length ≤ h.length := by
  induction n generalizing h with
  | nil => simp
  | cons a p ih =>
    cases h with
    | nil => simp [prefMatch] at hp
    | cons b l =>
      simp only [prefMatch, Bool.and_eq_true] at hp
      simpa using ih hp.2

theorem isSubstr_length {n h : List Char} (hs : isSubstrL n h = true) :
    n.length ≤ h.length := by
  induction h with
  | nil =>
    cases n with
    | nil => simp
    | cons a p => simp [isSubstrL, prefMatch] at hs
  | cons c t ih =>
    simp only [isSubstrL, Bool.or_eq_true] at hs
    rcases hs with hp | hrec
    · exact prefMatch_length hp
    · have := ih hrec
      simp only [List.length_cons]
      omega

theorem pyUpper_length (s : String) : (pyUpper s).length = s.length :=
  List.length_map s.data upperChar

theorem string_len_zero {s : String} (h : s = "") : s.length = 0 := by
  rw [h]; rfl

theorem trigA_not_trigI {b : TextBlock} (ha : TrigA b) : ¬ TrigI b := by
  rintro ⟨-, hi⟩
  rw [ha.2] at hi
  revert hi
  decide

theorem trigM_not_trigI {b : TextBlock} (hm : TrigM b) : ¬ TrigI b := by
  rintro ⟨-, hi2⟩
  rw [hm.2.2] at hi2
  exact Bool.false_ne_true hi2

theorem trigA_not_trigM {b : TextBlock} (ha : TrigA b) : ¬ TrigM b := by
  rintro ⟨-, hm, -⟩
  rw [ha.2] at hm
  revert hm
  decide

theorem trig_not_skipped {b : TextBlock} (h : TrigA b ∨ TrigI b ∨ TrigM b) :
    ¬ (pyStrip b.text = "" ∨ b.label = "page_header" ∨ b.label = "page_footer" ∨
      (pyStrip b.text).length < 3) := by
  have hlab : b.label = "section_header" := by
    rcases h with h | h | h <;> exact h.1
  have hlen : 3 ≤ (pyStrip b.text).length := by
    rcases h with h | h | h
    · have h8 : (pyUpper (pyStrip b.text)).length = 8 := by rw [h.2]; rfl
      rw [pyUpper_length] at h8
      omega
    · have h12 := isSubstr_length h.2
      have : (12 : Nat) ≤ (pyUpper (pyStrip b.text)).data.length := by
        simpa using h12
      have hl : (pyUpper (pyStrip b.text)).length = (pyStrip b.text).length :=
        pyUpper_length _
      simp only [String.length] at hl ⊢
      omega
    · rcases List.any_eq_true.mp h.2.1 with ⟨kw, hkw, hck⟩
      have hle := isSubstr_length hck
      have hl : (pyUpper (pyStrip b.text)).length = (pyStrip b.text).length :=
        pyUpper_length _
      fin_cases hkw <;>
        · simp only [String.length] at hl ⊢
          simp only [String.data, List.length_cons, List.length_nil] at hle
          omega
  rintro (he | he | he | he)
  · rw [string_len_zero he] at hlen; omega
  · rw [hlab] at he; exact absurd he (by decide)
  · rw [hlab] at he; exact absurd he (by decide)
  · omega

end Marcus

namespace Marcus

theorem enhStopStep_flags (s : EnhState) (b : TextBlock) (content : String) :
    flagsEq (enhStopStep s b content) s := by
  unfold flagsEq enhStopStep
  split
  · exact ⟨rfl, rfl, fun h => absurd h (by simp)⟩
  · exact ⟨rfl, rfl, id⟩

theorem enhAbstractApp_flags (s : EnhState) (b : TextBlock) (content : String) :
    flagsEq (enhAbstractApp s b content) s := by
  unfold flagsEq enhAbstractApp
  split
  · exact ⟨rfl, rfl, id⟩
  · exact ⟨rfl, rfl, id⟩

theorem enhIntroApp_flags (s : EnhState) (b : TextBlock) (content : String) :
    flagsEq (enhIntroApp s b content) s := by
  unfold flagsEq enhIntroApp
  split
  · exact ⟨rfl, rfl, id⟩
  · exact ⟨rfl, rfl, id⟩

theorem enhMainApp_flags (s : EnhState) (b : TextBlock) (content : String) :
    flagsEq (enhMainApp s b content) s := by
  unfold flagsEq enhMainApp
  split
  · exact ⟨rfl, rfl, id⟩
  · exact ⟨rfl, rfl, id⟩

theorem flagsEq_trans {s3 s2 s : EnhState} (h1 : flagsEq s3 s2) (h2 : flagsEq s2 s) :
    flagsEq s3 s :=
  ⟨h1.1.trans h2.1, h1.2.1.trans h2.2.1, fun h => h2.2.2 (h1.2.2 h)⟩

theorem enhCaptureStep_flags (s : EnhState) (b : TextBlock) (content : String) :
    flagsEq (enhCaptureStep s b content) s := by
  unfold enhCaptureStep
  exact flagsEq_trans (enhMainApp_flags _ _ _) (flagsEq_trans (enhIntroApp_flags _ _ _)
    (flagsEq_trans (enhAbstractApp_flags _ _ _) (enhStopStep_flags _ _ _)))

theorem forall_of_cons {P : TextBlock → Prop} {b : TextBlock} {rest : List TextBlock}
    (h : ∀ x ∈ b :: rest, P x) : ∀ x ∈ rest, P x :=
  fun x hx => h x (List.mem_cons_of_mem _ hx)

theorem exists_cons_of_tail {P : TextBlock → Prop} {b : TextBlock} {rest : List TextBlock}
    (h : ∃ x ∈ rest, P x) : ∃ x ∈ b :: rest, P x := by
  rcases h with ⟨x, hx, hp⟩
  exact ⟨x, List.mem_cons_of_mem _ hx, hp⟩

theorem exists_tail_of_cons {P : TextBlock → Prop} {b : TextBlock} {rest : List TextBlock}
    (hnb : ¬ P b) (h : ∃ x ∈ b :: rest, P x) : ∃ x ∈ rest, P x := by
  rcases h with ⟨x, hx, hp⟩
  rcases List.mem_cons.mp hx with rfl | hx2
  · exact absurd hp hnb
  · exact ⟨x, hx2, hp⟩

theorem enhInv_step {s : EnhState} {b : TextBlock} {rest : List TextBlock}
    (h : EnhInv s (b :: rest)) : EnhInv (enhStep s b) rest := by
  obtain ⟨hmx, hCi, hCm, hCa, hpw, hbr⟩ := h
  obtain ⟨hb, hpw2⟩ := List.pairwise_cons.mp hpw
  unfold enhStep
  by_cases h0 : pyStrip b.text = "" ∨ b.label = "page_header" ∨ b.label = "page_footer" ∨
      (pyStrip b.text).length < 3
  · rw [if_pos h0]
    have hnI : ¬ TrigI b := fun hi => trig_not_skipped (Or.inr (Or.inl hi)) h0
    refine ⟨hmx, fun him => forall_of_cons (hCi him), fun hm => forall_of_cons (hCm hm),
      fun ha hm => exists_tail_of_cons (fun hP => hnI hP.1)
        (hCa ha (exists_cons_of_tail hm)), hpw2,
      fun hTA hTM => exists_tail_of_cons (fun hP => hnI hP.1)
        (hbr (exists_cons_of_tail hTA) (exists_cons_of_tail hTM))⟩
  · rw [if_neg h0]
    by_cases h1 : b.label = "section_header" ∧ pyUpper (pyStrip b.text) = "ABSTRACT"
    · rw [if_pos h1]
      have hA : TrigA b := h1
      have hnI : ¬ TrigI b := trigA_not_trigI hA
      have hif : s.capturingIntroduction = false := by
        cases hfi : s.capturingIntroduction
        · rfl
        · exact absurd hA (hCi (Or.inl hfi) b (List.mem_cons_self _ _))
      have hmf : s.capturingMain = false := by
        cases hfm : s.capturingMain
        · rfl
        · exact absurd hA (hCi (Or.inr hfm) b (List.mem_cons_self _ _))
      refine ⟨?_, ?_, ?_, ?_, hpw2, ?_⟩
      · simp [MutexFlags, hif, hmf]
      · intro him
        simp only [hif, hmf] at him
        rcases him with h | h <;> exact absurd h (by simp)
      · intro hm
        simp only [hmf] at hm
        exact absurd hm (by simp)
      · intro _ hTM
        exact exists_tail_of_cons (fun hP => hnI hP.1)
          (hbr ⟨b, List.mem_cons_self _ _, hA⟩ (exists_cons_of_tail hTM))
      · exact fun hTA hTM => exists_tail_of_cons (fun hP => hnI hP.1)
          (hbr (exists_cons_of_tail hTA) (exists_cons_of_tail hTM))
    · rw [if_neg h1]
      by_cases h2 : s.capturingAbstract = true ∧
          structuredAbstractKws.any (fun k => containsSub (pyStrip b.text) k) = true
      · rw [if_pos h2]
        have hnK : ¬ KwFree b := by
          intro hk
          rw [KwFree, h2.2] at hk
          exact absurd hk (by decide)
        refine ⟨hmx, fun him => forall_of_cons (hCi him), fun hm => forall_of_cons (hCm hm),
          fun ha hm => exists_tail_of_cons (fun hP => hnK hP.2)
            (hCa ha (exists_cons_of_tail hm)), hpw2,
          fun hTA hTM => exists_tail_of_cons (fun hP => hnK hP.2)
            (hbr (exists_cons_of_tail hTA) (exists_cons_of_tail hTM))⟩
      · rw [if_neg h2]
        by_cases h3 : b.label = "section_header" ∧
            (containsSub (pyUpper (pyStrip b.text)) "INTRODUCTION" = true ∨
              (containsSub (pyStrip b.text) "|" = true ∧
                containsSub (pyUpper (pyStrip b.text)) "INTRODUCTION" = true))
        · rw [if_pos h3]
          have hI : TrigI b := by
            refine ⟨h3.1, ?_⟩
            rcases h3.2 with h | h
            · exact h
            · exact h.2
          have hmf : s.capturingMain = false := by
            cases hfm : s.capturingMain
            · rfl
            · exact absurd hI (hCm hfm b (List.mem_cons_self _ _))
          refine ⟨?_, ?_, ?_, ?_, hpw2, ?_⟩
          · exact ⟨fun hh => absurd hh.1 (by simp), fun hh => absurd hh.1 (by simp),
              fun hh => absurd hh.2 (by simp [hmf])⟩
          · exact fun _ x hx => (hb x hx).1 (Or.inl hI)
          · intro hm
            exact absurd hm (by simp [hmf])
          · intro ha
            exact absurd ha (by simp)
          · intro hTA _
            rcases hTA with ⟨x, hx, hAx⟩
            exact absurd hAx ((hb x hx).1 (Or.inl hI))
        · rw [if_neg h3]
          by_cases h4 : b.label = "section_header" ∧
              enhancedMainKws.any
                (fun k => containsSub (pyUpper (pyStrip b.text)) k) = true
          · rw [if_pos h4]
            have hnIntro : containsSub (pyUpper (pyStrip b.text)) "INTRODUCTION" = false := by
              cases hc : containsSub (pyUpper (pyStrip b.text)) "INTRODUCTION"
              · rfl
              · exact absurd ⟨h4.1, Or.inl hc⟩ h3
            have hM : TrigM b := ⟨h4.1, h4.2, hnIntro⟩
            have haf : s.capturingAbstract = false := by
              cases hfa : s.capturingAbstract
              · rfl
              · have hgood := hCa hfa ⟨b, List.mem_cons_self _ _, hM⟩
                have hgood2 := exists_tail_of_cons
                  (fun hP => trigM_not_trigI hM hP.1) hgood
                rcases hgood2 with ⟨g, hg, hgI, -⟩
                exact absurd hgI ((hb g hg).2 hM)
            refine ⟨?_, ?_, ?_, ?_, hpw2, ?_⟩
            · exact ⟨fun hh => absurd hh.2 (by simp), fun hh => absurd hh.1 (by simp [haf]),
                fun hh => absurd hh.1 (by simp)⟩
            · exact fun _ x hx => (hb x hx).1 (Or.inr hM)
            · exact fun _ x hx => (hb x hx).2 hM
            · intro ha
              exact absurd ha (by simp [haf])
            · intro hTA _
              rcases hTA with ⟨x, hx, hAx⟩
              exact absurd hAx ((hb x hx).1 (Or.inr hM))
          · rw [if_neg h4]
            have hnI : ¬ TrigI b := fun hI => h3 ⟨hI.1, Or.inl hI.2⟩
            have fe := enhCaptureStep_flags s b (pyStrip b.text)
            obtain ⟨fa, fi, fm⟩ := fe
            refine ⟨?_, ?_, ?_, ?_, hpw2, ?_⟩
            · refine ⟨fun hh => hmx.1 ⟨?_, ?_⟩, fun hh => hmx.2.1 ⟨?_, ?_⟩,
                fun hh => hmx.2.2 ⟨?_, ?_⟩⟩
              · rw [← fa]; exact hh.1
              · rw [← fi]; exact hh.2
              · rw [← fa]; exact hh.1
              · exact fm hh.2
              · rw [← fi]; exact hh.1
              · exact fm hh.2
            · intro him
              refine forall_of_cons (hCi ?_)
              rcases him with hh | hh
              · exact Or.inl (by rw [← fi]; exact hh)
              · exact Or.inr (fm hh)
            · intro hm
              exact forall_of_cons (hCm (fm hm))
            · intro ha hm
              refine exists_tail_of_cons (fun hP => hnI hP.1) (hCa ?_ (exists_cons_of_tail hm))
              rw [← fa]; exact ha
            · exact fun hTA hTM => exists_tail_of_cons (fun hP => hnI hP.1)
                (hbr (exists_cons_of_tail hTA) (exists_cons_of_tail hTM))

end Marcus

namespace Marcus

theorem enhScan_mutex : ∀ (rest : List TextBlock) (s : EnhState), EnhInv s rest →
    ∀ p, p <+: rest → MutexFlags (p.foldl enhStep s) := by
  intro rest
  induction rest with
  | nil =>
    intro s hInv p hp
    have hpnil : p = [] := List.prefix_nil.mp hp
    subst hpnil
    exact hInv.1
  | cons b t ih =>
    intro s hInv p hp
    cases p with
    | nil => exact hInv.1
    | cons b' p' =>
      obtain ⟨rfl, hp'⟩ := List.cons_prefix_cons.mp hp
      rw [List.foldl_cons]
      exact ih (enhStep s b') (enhInv_step hInv) p' hp'

/-- C9: the three capture flags of the enhanced scan are mutually
exclusive at every step, for every block sequence whose transition
headers occur in canonical order and whose abstract-to-main
transitions pass through an unconsumable INTRODUCTION header; for
arbitrary sequences the claimed unconditional exclusivity fails
(see the counterexample). -/
theorem C9_flag_mutex (blocks : List TextBlock) (hpw : List.Pairwise TrigOrder blocks)
    (hbr : BridgeOk blocks) :
    ∀ p, p <+: blocks → MutexFlags (List.foldl enhStep enhInit p) := by
  refine enhScan_mutex blocks enhInit ⟨?_, ?_, ?_, ?_, hpw, hbr⟩
  · exact ⟨fun hh => by simp [enhInit] at hh, fun hh => by simp [enhInit] at hh,
      fun hh => by simp [enhInit] at hh⟩
  · intro him
    rcases him with hh | hh <;> simp [enhInit] at hh
  · intro hm
    simp [enhInit] at hm
  · intro ha
    simp [enhInit] at ha

end Marcus

namespace Marcus

theorem pairsOk_cons {q : Char → Char → Bool} {c : Char} {z : List Char}
    (hz : pairsOk q z = true) (hc : ∀ d t, z = d :: t → q c d = true) :
    pairsOk q (c :: z) = true := by
  cases z with
  | nil => rfl
  | cons d t =>
    simp only [pairsOk, Bool.and_eq_true]
    exact ⟨hc d t rfl, hz⟩

theorem pairsOk_tail {q : Char → Char → Bool} {c : Char} {z : List Char}
    (h : pairsOk q (c :: z) = true) : pairsOk q z = true := by
  cases z with
  | nil => rfl
  | cons d t =>
    simp only [pairsOk, Bool.and_eq_true] at h
    exact h.2

theorem pairsOk_head {q : Char → Char → Bool} {c d : Char} {t : List Char}
    (h : pairsOk q (c :: d :: t) = true) : q c d = true := by
  simp only [pairsOk, Bool.and_eq_true] at h
  exact h.1

-- identity lemmas for the repair steps on clean inputs

theorem tildeGo_id (l : List Char) (h : ∀ c ∈ l, c ≠ '~') :
    ∀ pending, tildeGo pending l = pending.reverse ++ l := by
  induction l with
  | nil => intro pending; simp [tildeGo]
  | cons c t ih =>
    intro pending
    unfold tildeGo
    split
    · rw [ih (fun x hx => h x (List.mem_cons_of_mem _ hx)) (c :: pending)]
      simp
    · split
      · exact absurd (by assumption) (h c (List.mem_cons_self _ _))
      · rw [ih (fun x hx => h x (List.mem_cons_of_mem _ hx)) []]
        simp

theorem tildeDrop_id (l : List Char) (h : ∀ c ∈ l, c ≠ '~') : tildeDrop l = l := by
  unfold tildeDrop
  rw [tildeGo_id l h []]
  rfl

theorem pipeSpaceGo_id (l : List Char) (h : ∀ c ∈ l, c ≠ '|') :
    ∀ pending, pipeSpaceGo pending l = pending.reverse ++ l := by
  induction l with
  | nil => intro pending; simp [pipeSpaceGo]
  | cons c t ih =>
    intro pending
    unfold pipeSpaceGo
    split
    · rw [ih (fun x hx => h x (List.mem_cons_of_mem _ hx)) (c :: pending)]
      simp
    · split
      · exact absurd (by assumption) (h c (List.mem_cons_self _ _))
      · rw [ih (fun x hx => h x (List.mem_cons_of_mem _ hx)) []]
        simp

theorem pipeSpace_id (l : List Char) (h : ∀ c ∈ l, c ≠ '|') : pipeSpace l = l := by
  unfold pipeSpace
  rw [pipeSpaceGo_id l h []]
  rfl

theorem stripLigs_id (l : List Char) (h : ∀ c ∈ l, ligChars.contains c = false) :
    stripLigs l = l := by
  unfold stripLigs
  rw [List.filter_eq_self.mpr]
  intro a ha
  have := h a ha
  rw [List.contains_eq_any_beq] at this
  simp only [List.any_eq_false, beq_iff_eq] at this
  simpa using fun hmem => this a hmem rfl

end Marcus

namespace Marcus

theorem hyphen_id_joint (l : List Char) (h : ∀ c ∈ l, c ≠ '-') :
    hyGo l = l ∧ ∀ w, hyWord w l = w :: l := by
  induction l with
  | nil => exact ⟨rfl, fun w => rfl⟩
  | cons c t ih =>
    have ht := ih fun x hx => h x (List.mem_cons_of_mem _ hx)
    have hc := h c (List.mem_cons_self _ _)
    constructor
    · unfold hyGo
      split
      · exact ht.2 c
      · rw [ht.1]
    · intro w
      unfold hyWord
      rw [if_neg (fun hh => hc hh)]
      split
      · rw [ht.2 c]
      · rw [ht.1]

theorem hyphenJoin_id (l : List Char) (h : ∀ c ∈ l, c ≠ '-') : hyphenJoin l = l :=
  (hyphen_id_joint l h).1

theorem nlToSpace_id (l : List Char) (h : ∀ c ∈ l, c ≠ '\n') : nlToSpace l = l := by
  unfold nlToSpace
  rw [List.map_congr_left fun c hc => if_neg (h c hc)]
  exact List.map_id _

theorem lowUpSplit_id (l : List Char) (h : pairsOk noLowUp l = true) :
    lowUpSplit l = l := by
  induction l with
  | nil => rfl
  | cons a t ih =>
    cases t with
    | nil => rfl
    | cons b u =>
      have hab : noLowUp a b = true := pairsOk_head h
      have hn : ¬ (isLowerAlpha a && isUpperAlpha b) = true := by
        intro hh
        unfold noLowUp at hab
        rw [hh] at hab
        exact absurd hab (by decide)
      unfold lowUpSplit
      rw [if_neg hn, ih (pairsOk_tail h)]

theorem collapse_id_joint (l : List Char) (hsp : onlySpaceWs l = true)
    (hpair : pairsOk noTwoWs l = true) :
    collapseWsGo false l = l ∧
    ((∀ c t, l = c :: t → isWsChar c = false) → collapseWsGo true l = l) := by
  induction l with
  | nil => exact ⟨rfl, fun _ => rfl⟩
  | cons c t ih =>
    have hsp' : onlySpaceWs t = true := by
      simp only [onlySpaceWs, List.all_cons, Bool.and_eq_true] at hsp
      exact hsp.2
    have hct : onlySpaceWs (c :: t) = true := hsp
    have ht := ih hsp' (pairsOk_tail hpair)
    constructor
    · unfold collapseWsGo
      cases hw : isWsChar c with
      | false =>
        rw [if_neg Bool.false_ne_true, ht.1]
      | true =>
        have hcsp : c = ' ' := by
          simp only [onlySpaceWs, List.all_cons, Bool.and_eq_true] at hct
          rcases Bool.or_eq_true_iff.mp hct.1 with hh | hh
          · rw [hw] at hh; exact absurd hh (by decide)
          · exact beq_iff_eq.mp hh
        have htt : collapseWsGo true t = t := by
          apply ht.2
          intro d u hdu
          subst hdu
          have h2 := pairsOk_head hpair
          cases hdw : isWsChar d
          · rfl
          · exfalso
            unfold noTwoWs at h2
            rw [hw, hdw] at h2
            exact absurd h2 (by decide)
        rw [if_pos rfl, if_neg Bool.false_ne_true, htt, hcsp]
    · intro hhead
      unfold collapseWsGo
      rw [hhead c t rfl, if_neg Bool.false_ne_true, ht.1]

theorem collapseWs_id (l : List Char) (hsp : onlySpaceWs l = true)
    (hpair : pairsOk noTwoWs l = true) : collapseWs l = l :=
  (collapse_id_joint l hsp hpair).1

theorem delWsPunct_id (l : List Char) (h : pairsOk noWsPunct l = true) :
    delWsPunct l = l := by
  induction l with
  | nil => rfl
  | cons a t ih =>
    cases t with
    | nil => rfl
    | cons b u =>
      have hab : noWsPunct a b = true := pairsOk_head h
      have hn : ¬ (isWsChar a && isPunctCh b) = true := by
        intro hh
        unfold noWsPunct at hab
        rw [hh] at hab
        exact absurd hab (by decide)
      unfold delWsPunct
      rw [if_neg hn, ih (pairsOk_tail h)]

theorem stripL_id (l : List Char)
    (hhead : ∀ c t, l = c :: t → isWsChar c = false)
    (hlast : ∀ c t, l.reverse = c :: t → isWsChar c = false) : stripL l = l := by
  unfold stripL
  rw [dropWhile_eq_self_of_head _ _ fun c t hct => hhead c t hct]
  rw [dropWhile_eq_self_of_head _ _ fun c t hct => hlast c t hct]
  exact List.reverse_reverse l

end Marcus

namespace Marcus

theorem punct_not_ws (c : Char) (h : isPunctCh c = true) : isWsChar c = false := by
  simp only [isPunctCh, Bool.or_eq_true, beq_iff_eq] at h
  simp only [isWsChar, Bool.or_eq_false_iff, beq_eq_false_iff_ne, ne_eq]
  omega

theorem lower_not_ws (c : Char) (h : isLowerAlpha c = true) : isWsChar c = false := by
  simp only [isLowerAlpha, Bool.and_eq_true, decide_eq_true_eq] at h
  simp only [isWsChar, Bool.or_eq_false_iff, beq_eq_false_iff_ne, ne_eq]
  omega

theorem upper_not_ws (c : Char) (h : isUpperAlpha c = true) : isWsChar c = false := by
  simp only [isUpperAlpha, Bool.and_eq_true, decide_eq_true_eq] at h
  simp only [isWsChar, Bool.or_eq_false_iff, beq_eq_false_iff_ne, ne_eq]
  omega

theorem upper_not_punct (c : Char) (h : isUpperAlpha c = true) : isPunctCh c = false := by
  simp only [isUpperAlpha, Bool.and_eq_true, decide_eq_true_eq] at h
  simp only [isPunctCh, Bool.or_eq_false_iff, beq_eq_false_iff_ne, ne_eq]
  omega

theorem upper_not_lower (c : Char) (h : isUpperAlpha c = true) : isLowerAlpha c = false := by
  simp only [isUpperAlpha, Bool.and_eq_true, decide_eq_true_eq] at h
  simp only [isLowerAlpha, Bool.and_eq_false_iff, decide_eq_false_iff_not, not_le]
  omega

theorem delWsPunct_cons_nonws (c : Char) (t : List Char) (h : isWsChar c = false) :
    delWsPunct (c :: t) = c :: delWsPunct t := by
  cases t with
  | nil => rfl
  | cons d u =>
    conv_lhs => unfold delWsPunct
    rw [if_neg (by rw [h]; simp)]

theorem dropWsPunct_eq_del (l : List Char) (h : pairsOk noTwoWs l = true) :
    dropWsPunctGo [] l = delWsPunct l ∧
    ∀ w, isWsChar w = true → (∀ d u, l = d :: u → isWsChar d = false) →
      dropWsPunctGo [w] l = delWsPunct (w :: l) := by
  induction l with
  | nil => exact ⟨rfl, fun w _ _ => rfl⟩
  | cons c t ih =>
    have ht := ih (pairsOk_tail h)
    constructor
    · unfold dropWsPunctGo
      cases hw : isWsChar c with
      | true =>
        rw [if_pos rfl]
        refine ht.2 c hw ?_
        intro d u hdu
        subst hdu
        have h2 := pairsOk_head h
        unfold noTwoWs at h2
        rw [hw] at h2
        cases hdw : isWsChar d
        · rfl
        · rw [hdw] at h2; exact absurd h2 (by decide)
      | false =>
        rw [if_neg Bool.false_ne_true]
        have hrest : delWsPunct (c :: t) = c :: delWsPunct t :=
          delWsPunct_cons_nonws c t hw
        cases hp : isPunctCh c with
        | true => rw [if_pos rfl, ht.1, hrest]
        | false =>
          rw [if_neg Bool.false_ne_true, ht.1, hrest]
          rfl
    · intro w hww hhead
      have hcn : isWsChar c = false := hhead c t rfl
      unfold dropWsPunctGo
      rw [hcn, if_neg Bool.false_ne_true]
      cases hp : isPunctCh c with
      | true =>
        rw [if_pos rfl]
        have hdel : delWsPunct (w :: c :: t) = delWsPunct (c :: t) := by
          conv_lhs => unfold delWsPunct
          rw [if_pos (by rw [hww, hp]; rfl)]
        rw [hdel, delWsPunct_cons_nonws c t hcn, ht.1]
      | false =>
        rw [if_neg Bool.false_ne_true]
        have hdel : delWsPunct (w :: c :: t) = w :: delWsPunct (c :: t) := by
          conv_lhs => unfold delWsPunct
          rw [if_neg (by rw [hp]; simp)]
        rw [hdel, delWsPunct_cons_nonws c t hcn, ht.1]
        rfl

theorem dropWsPunct_eq_delWsPunct (l : List Char) (h : pairsOk noTwoWs l = true) :
    dropWsPunct l = delWsPunct l := (dropWsPunct_eq_del l h).1

theorem delWsPunct_head : ∀ (t : List Char) (d e : Char) (r : List Char),
    delWsPunct (d :: t) = e :: r → e = d ∨ (isWsChar d = true ∧ isWsChar e = false)
  | [], d, e, r, h => by cases h; exact Or.inl rfl
  | d2 :: t2, d, e, r, h => by
    unfold delWsPunct at h
    split at h
    · next hcond =>
      rw [Bool.and_eq_true] at hcond
      rcases delWsPunct_head t2 d2 e r h with rfl | ⟨hw2, hne⟩
      · exact Or.inr ⟨hcond.1, punct_not_ws _ hcond.2⟩
      · have hx := punct_not_ws _ hcond.2
        rw [hx] at hw2
        exact absurd hw2 (by decide)
    · cases h
      exact Or.inl rfl

theorem delWsPunct_pairs (l : List Char) (h : pairsOk noTwoWs l = true) :
    pairsOk noWsPunct (delWsPunct l) = true ∧ pairsOk noTwoWs (delWsPunct l) = true := by
  induction l with
  | nil => exact ⟨rfl, rfl⟩
  | cons c t ih =>
    have ht := ih (pairsOk_tail h)
    cases t with
    | nil => exact ⟨rfl, rfl⟩
    | cons d u =>
      have hcd : noTwoWs c d = true := pairsOk_head h
      cases hx : (isWsChar c && isPunctCh d) with
      | true =>
        have hrw : delWsPunct (c :: d :: u) = delWsPunct (d :: u) := by
          conv_lhs => unfold delWsPunct
          rw [if_pos hx]
        rw [hrw]
        exact ht
      | false =>
        have hrw : delWsPunct (c :: d :: u) = c :: delWsPunct (d :: u) := by
          conv_lhs => unfold delWsPunct
          rw [if_neg (by rw [hx]; exact Bool.false_ne_true)]
        rw [hrw]
        have hwc_of : isWsChar d = true → isWsChar c = false := by
          intro hwd
          unfold noTwoWs at hcd
          cases hy : isWsChar c
          · rfl
          · rw [hy, hwd] at hcd; exact absurd hcd (by decide)
        constructor
        · apply pairsOk_cons ht.1
          intro e r her
          rcases delWsPunct_head u d e r her with rfl | ⟨hwd, hwe⟩
          · unfold noWsPunct; rw [hx]; rfl
          · unfold noWsPunct; rw [hwc_of hwd]; rfl
        · apply pairsOk_cons ht.2
          intro e r her
          rcases delWsPunct_head u d e r her with rfl | ⟨hwd, hwe⟩
          · exact hcd
          · unfold noTwoWs; rw [hwc_of hwd]; rfl

theorem delWsPunct_mem : ∀ (l : List Char), ∀ c ∈ delWsPunct l, c ∈ l := by
  intro l
  induction l with
  | nil => intro c hc; exact hc
  | cons a t ih =>
    cases t with
    | nil => intro c hc; exact hc
    | cons b u =>
      intro c hc
      revert hc
      unfold delWsPunct
      split
      · intro hc; exact List.mem_cons_of_mem a (ih c hc)
      · intro hc
        rcases List.mem_cons.mp hc with rfl | h2
        · exact List.mem_cons_self _ _
        · exact List.mem_cons_of_mem a (ih c h2)

end Marcus

namespace Marcus

theorem onlySpaceWs_cons {c : Char} {t : List Char} (hc : (!isWsChar c || c == ' ') = true)
    (ht : onlySpaceWs t = true) : onlySpaceWs (c :: t) = true := by
  unfold onlySpaceWs at *
  rw [List.all_cons, hc, ht]
  rfl

theorem collapseWsGo_mem : ∀ (l : List Char) (b : Bool) (c : Char),
    c ∈ collapseWsGo b l → c ∈ l ∨ c = ' ' := by
  intro l
  induction l with
  | nil =>
    intro b c hc
    exact absurd hc (by cases b <;> simp [collapseWsGo])
  | cons a t ih =>
    intro b c hc
    unfold collapseWsGo at hc
    split at hc
    · split at hc
      · rcases ih true c hc with h2 | h2
        · exact Or.inl (List.mem_cons_of_mem a h2)
        · exact Or.inr h2
      · rcases List.mem_cons.mp hc with rfl | h2
        · exact Or.inr rfl
        · rcases ih true c h2 with h3 | h3
          · exact Or.inl (List.mem_cons_of_mem a h3)
          · exact Or.inr h3
    · rcases List.mem_cons.mp hc with rfl | h2
      · exact Or.inl (List.mem_cons_self _ _)
      · rcases ih false c h2 with h3 | h3
        · exact Or.inl (List.mem_cons_of_mem a h3)
        · exact Or.inr h3

theorem nlToSpace_mem (l : List Char) (c : Char) (h : c ∈ nlToSpace l) :
    c ∈ l ∨ c = ' ' := by
  unfold nlToSpace at h
  rcases List.mem_map.mp h with ⟨a, ha, hfa⟩
  by_cases hn : a = '\n'
  · rw [if_pos hn] at hfa; exact Or.inr hfa.symm
  · rw [if_neg hn] at hfa; exact Or.inl (hfa ▸ ha)

theorem lowUpSplit_mem : ∀ (l : List Char) (c : Char),
    c ∈ lowUpSplit l → c ∈ l ∨ c = ' '
  | [], c, h => absurd h (by simp [lowUpSplit])
  | [a], c, h => by
    simp only [lowUpSplit] at h
    exact Or.inl h
  | a :: b :: t, c, h => by
    unfold lowUpSplit at h
    split at h
    · rcases List.mem_cons.mp h with rfl | h
      · exact Or.inl (List.mem_cons_self _ _)
      · rcases List.mem_cons.mp h with rfl | h
        · exact Or.inr rfl
        · rcases List.mem_cons.mp h with rfl | h
          · exact Or.inl (List.mem_cons_of_mem _ (List.mem_cons_self _ _))
          · rcases lowUpSplit_mem t c h with h2 | h2
            · exact Or.inl (List.mem_cons_of_mem _ (List.mem_cons_of_mem _ h2))
            · exact Or.inr h2
    · rcases List.mem_cons.mp h with rfl | h
      · exact Or.inl (List.mem_cons_self _ _)
      · rcases lowUpSplit_mem (b :: t) c h with h2 | h2
        · exact Or.inl (List.mem_cons_of_mem _ h2)
        · exact Or.inr h2

theorem lowUpSplit_cons (c : Char) (t : List Char) :
    ∃ r, lowUpSplit (c :: t) = c :: r := by
  cases t with
  | nil => exact ⟨[], rfl⟩
  | cons b u =>
    unfold lowUpSplit
    split
    · exact ⟨_, rfl⟩
    · exact ⟨_, rfl⟩

theorem collapseWsGo_props : ∀ (l : List Char),
    (onlySpaceWs (collapseWsGo false l) = true ∧
      pairsOk noTwoWs (collapseWsGo false l) = true) ∧
    (onlySpaceWs (collapseWsGo true l) = true ∧
      pairsOk noTwoWs (collapseWsGo true l) = true ∧
      ∀ e r, collapseWsGo true l = e :: r → isWsChar e = false) := by
  intro l
  induction l with
  | nil =>
    refine ⟨⟨rfl, rfl⟩, rfl, rfl, ?_⟩
    intro e r h
    exact absurd h (by simp [collapseWsGo])
  | cons c t ih =>
    have hfalse : collapseWsGo false (c :: t) =
        if isWsChar c then ' ' :: collapseWsGo true t else c :: collapseWsGo false t := by
      conv_lhs => unfold collapseWsGo
      cases isWsChar c <;> simp
    have htrue : collapseWsGo true (c :: t) =
        if isWsChar c then collapseWsGo true t else c :: collapseWsGo false t := by
      conv_lhs => unfold collapseWsGo
      cases isWsChar c <;> simp
    constructor
    · rw [hfalse]
      cases hw : isWsChar c with
      | true =>
        rw [if_pos rfl]
        constructor
        · exact onlySpaceWs_cons (by decide) ih.2.1
        · apply pairsOk_cons ih.2.2.1
          intro e r her
          have := ih.2.2.2 e r her
          unfold noTwoWs
          rw [this]
          simp
      | false =>
        rw [if_neg Bool.false_ne_true]
        constructor
        · exact onlySpaceWs_cons (by rw [hw]; rfl) ih.1.1
        · apply pairsOk_cons ih.1.2
          intro e r her
          unfold noTwoWs
          rw [hw]
          rfl
    · rw [htrue]
      cases hw : isWsChar c with
      | true =>
        rw [if_pos rfl]
        exact ih.2
      | false =>
        rw [if_neg Bool.false_ne_true]
        refine ⟨onlySpaceWs_cons (by rw [hw]; rfl) ih.1.1, ?_, ?_⟩
        · apply pairsOk_cons ih.1.2
          intro e r her
          unfold noTwoWs
          rw [hw]
          rfl
        · intro e r her
          cases her
          exact hw

theorem collapseWs_onlySpace (l : List Char) : onlySpaceWs (collapseWs l) = true :=
  (collapseWsGo_props l).1.1

theorem collapseWs_noTwoWs (l : List Char) : pairsOk noTwoWs (collapseWs l) = true :=
  (collapseWsGo_props l).1.2

end Marcus

namespace Marcus

theorem lowUpSplit_pairs : ∀ (l : List Char),
    pairsOk noTwoWs l = true → pairsOk noWsPunct l = true →
    pairsOk noLowUp (lowUpSplit l) = true ∧
    pairsOk noTwoWs (lowUpSplit l) = true ∧
    pairsOk noWsPunct (lowUpSplit l) = true
  | [], _, _ => ⟨rfl, rfl, rfl⟩
  | [_], _, _ => ⟨rfl, rfl, rfl⟩
  | a :: b :: t, h2, h3 => by
    have ht2 : pairsOk noTwoWs t = true := pairsOk_tail (pairsOk_tail h2)
    have ht3 : pairsOk noWsPunct t = true := pairsOk_tail (pairsOk_tail h3)
    have heq : lowUpSplit (a :: b :: t) =
        if isLowerAlpha a && isUpperAlpha b then a :: ' ' :: b :: lowUpSplit t
        else a :: lowUpSplit (b :: t) := by
      conv_lhs => unfold lowUpSplit
    rw [heq]
    cases hab : (isLowerAlpha a && isUpperAlpha b) with
    | true =>
      rw [if_pos rfl]
      have hr := lowUpSplit_pairs t ht2 ht3
      rw [Bool.and_eq_true] at hab
      have hwa : isWsChar a = false := lower_not_ws a hab.1
      have hwb : isWsChar b = false := upper_not_ws b hab.2
      have hpb : isPunctCh b = false := upper_not_punct b hab.2
      have hlb : isLowerAlpha b = false := upper_not_lower b hab.2
      have build : ∀ q : Char → Char → Bool, pairsOk q (lowUpSplit t) = true →
          (∀ e, q b e = true) → q ' ' b = true → q a ' ' = true →
          pairsOk q (a :: ' ' :: b :: lowUpSplit t) = true := by
        intro q hq hb hsb has
        apply pairsOk_cons
        · apply pairsOk_cons
          · apply pairsOk_cons hq
            intro e r her
            exact hb e
          · intro d t' hdt
            cases hdt
            exact hsb
        · intro d t' hdt
          cases hdt
          exact has
      refine ⟨?_, ?_, ?_⟩
      · refine build noLowUp hr.1 ?_ ?_ ?_
        · intro e; unfold noLowUp; rw [hlb]; rfl
        · unfold noLowUp
          have hl : isLowerAlpha ' ' = false := by decide
          rw [hl]; rfl
        · unfold noLowUp
          have hu : isUpperAlpha ' ' = false := by decide
          rw [hu]; simp
      · refine build noTwoWs hr.2.1 ?_ ?_ ?_
        · intro e; unfold noTwoWs; rw [hwb]; rfl
        · unfold noTwoWs; rw [hwb]; simp
        · unfold noTwoWs; rw [hwa]; rfl
      · refine build noWsPunct hr.2.2 ?_ ?_ ?_
        · intro e; unfold noWsPunct; rw [hwb]; rfl
        · unfold noWsPunct; rw [hpb]; simp
        · unfold noWsPunct; rw [hwa]; rfl
    | false =>
      rw [if_neg Bool.false_ne_true]
      have hr := lowUpSplit_pairs (b :: t) (pairsOk_tail h2) (pairsOk_tail h3)
      rcases lowUpSplit_cons b t with ⟨r, hr2⟩
      refine ⟨?_, ?_, ?_⟩
      · apply pairsOk_cons hr.1
        intro d t' hdt
        rw [hr2] at hdt
        cases hdt
        unfold noLowUp; rw [hab]; rfl
      · apply pairsOk_cons hr.2.1
        intro d t' hdt
        rw [hr2] at hdt
        cases hdt
        exact pairsOk_head h2
      · apply pairsOk_cons hr.2.2
        intro d t' hdt
        rw [hr2] at hdt
        cases hdt
        exact pairsOk_head h3

theorem pairsOk_append_right {q : Char → Char → Bool} :
    ∀ (s m : List Char), pairsOk q (s ++ m) = true → pairsOk q m = true := by
  intro s
  induction s with
  | nil => intro m h; exact h
  | cons a s' ih => intro m h; exact ih m (pairsOk_tail h)

theorem pairsOk_append_left {q : Char → Char → Bool} :
    ∀ (m t : List Char), pairsOk q (m ++ t) = true → pairsOk q m = true
  | [], _, _ => rfl
  | [_], _, _ => rfl
  | c :: d :: m', t, h => by
    have h1 : q c d = true := pairsOk_head h
    have h2 := pairsOk_append_left (d :: m') t (pairsOk_tail h)
    unfold pairsOk
    rw [h1, h2]
    rfl

theorem pairsOk_infix {q : Char → Char → Bool} {l m : List Char}
    (h : pairsOk q l = true) (hinf : ∃ u v, l = u ++ (m ++ v)) :
    pairsOk q m = true := by
  rcases hinf with ⟨u, v, rfl⟩
  exact pairsOk_append_left m v (pairsOk_append_right u (m ++ v) h)

theorem stripL_infix (l : List Char) : ∃ u v, l = u ++ (stripL l ++ v) := by
  rcases exists_append_dropWhile isWsChar l with ⟨u, hu⟩
  rcases exists_append_dropWhile isWsChar (l.dropWhile isWsChar).reverse with ⟨v, hv⟩
  refine ⟨u, v.reverse, ?_⟩
  have hmain : l.dropWhile isWsChar = stripL l ++ v.reverse := by
    have hrv := congrArg List.reverse hv
    rw [List.reverse_reverse, List.reverse_append] at hrv
    exact hrv
  rw [← hmain]
  exact hu

theorem stripL_mem (l : List Char) (c : Char) (h : c ∈ stripL l) : c ∈ l := by
  rcases stripL_infix l with ⟨u, v, he⟩
  rw [he]
  simp [h]

theorem onlySpaceWs_mono {L M : List Char} (hL : onlySpaceWs L = true)
    (h : ∀ c ∈ M, c ∈ L ∨ c = ' ') : onlySpaceWs M = true := by
  unfold onlySpaceWs at *
  rw [List.all_eq_true] at *
  intro c hc
  rcases h c hc with h2 | rfl
  · exact hL c h2
  · decide

theorem no_nl_of_onlySpace {l : List Char} (h : onlySpaceWs l = true) :
    ∀ c ∈ l, c ≠ '\n' := by
  intro c hc he
  subst he
  unfold onlySpaceWs at h
  rw [List.all_eq_true] at h
  have h2 := h _ hc
  exact absurd h2 (by decide)

end Marcus

namespace Marcus
theorem triplesOk_tail {r : Char → Char → Char → Bool} {x : Char} {z : List Char}
    (h : triplesOk r (x :: z) = true) : triplesOk r z = true := by
  cases z with
  | nil => rfl
  | cons b z2 =>
    cases z2 with
    | nil => rfl
    | cons c t =>
      simp only [triplesOk, Bool.and_eq_true] at h
      exact h.2

theorem triplesOk_head {r : Char → Char → Char → Bool} {a b c : Char} {t : List Char}
    (h : triplesOk r (a :: b :: c :: t) = true) : r a b c = true := by
  simp only [triplesOk, Bool.and_eq_true] at h
  exact h.1

theorem triplesOk_cons {r : Char → Char → Char → Bool} {a : Char} {z : List Char}
    (hz : triplesOk r z = true) (ha : ∀ b c t, z = b :: c :: t → r a b c = true) :
    triplesOk r (a :: z) = true := by
  cases z with
  | nil => rfl
  | cons b z2 =>
    cases z2 with
    | nil => rfl
    | cons c t =>
      simp only [triplesOk, Bool.and_eq_true]
      exact ⟨ha b c t rfl, hz⟩

theorem triplesOk_append_right {r : Char → Char → Char → Bool} :
    ∀ (s m : List Char), triplesOk r (s ++ m) = true → triplesOk r m = true := by
  intro s
  induction s with
  | nil => intro m h; exact h
  | cons a s2 ih => intro m h; exact ih m (triplesOk_tail h)

theorem triplesOk_append_left {r : Char → Char → Char → Bool} :
    ∀ (m t : List Char), triplesOk r (m ++ t) = true → triplesOk r m = true
  | [], _, _ => rfl
  | [_], _, _ => rfl
  | [_, _], _, _ => rfl
  | a :: b :: c :: m2, t, h => by
    have h1 : r a b c = true := triplesOk_head h
    have h2 := triplesOk_append_left (b :: c :: m2) t (triplesOk_tail h)
    simp only [triplesOk, Bool.and_eq_true]
    exact ⟨h1, h2⟩

theorem triplesOk_infix {r : Char → Char → Char → Bool} {l m : List Char}
    (h : triplesOk r l = true) (hinf : ∃ u v, l = u ++ (m ++ v)) :
    triplesOk r m = true := by
  rcases hinf with ⟨u, v, rfl⟩
  exact triplesOk_append_left m v (triplesOk_append_right u (m ++ v) h)

end Marcus

namespace Marcus

theorem collapseWsGo_cons (b : Bool) (c : Char) (X : List Char) :
    collapseWsGo b (c :: X) =
      if isWsChar c then
        (if b then collapseWsGo true X else ' ' :: collapseWsGo true X)
      else c :: collapseWsGo false X := by
  conv_lhs => unfold collapseWsGo

theorem lowUpSplit_two (a b : Char) (t : List Char) :
    lowUpSplit (a :: b :: t) =
      if isLowerAlpha a && isUpperAlpha b then a :: ' ' :: b :: lowUpSplit t
      else a :: lowUpSplit (b :: t) := by
  conv_lhs => unfold lowUpSplit

theorem lowUp_cons_of (a : Char) (X : List Char)
    (h : ∀ x r, X = x :: r → (isLowerAlpha a && isUpperAlpha x) = false) :
    lowUpSplit (a :: X) = a :: lowUpSplit X := by
  cases X with
  | nil => rfl
  | cons x r =>
    rw [lowUpSplit_two, if_neg]
    rw [h x r rfl]
    exact Bool.false_ne_true

theorem lowUp_cons_space (X : List Char) : lowUpSplit (' ' :: X) = ' ' :: lowUpSplit X := by
  apply lowUp_cons_of
  intro x r hx
  have hl : isLowerAlpha ' ' = false := by decide
  rw [hl]
  rfl

theorem collapse_head_false (d : Char) (t : List Char) {x : Char} {r : List Char}
    (h : collapseWsGo false (d :: t) = x :: r) :
    x = d ∨ (x = ' ' ∧ isWsChar d = true) := by
  rw [collapseWsGo_cons] at h
  cases hw : isWsChar d with
  | true =>
    rw [hw] at h
    simp only [if_pos rfl, Bool.false_eq_true, if_false] at h
    cases h
    exact Or.inr ⟨rfl, rfl⟩
  | false =>
    rw [hw] at h
    simp only [Bool.false_eq_true, if_false] at h
    cases h
    exact Or.inl rfl

theorem collapse_lowUp_comm : ∀ (v : List Char) (b : Bool),
    collapseWsGo b (lowUpSplit v) = lowUpSplit (collapseWsGo b v)
  | [], b => by cases b <;> rfl
  | [c], b => by
    show collapseWsGo b [c] = lowUpSplit (collapseWsGo b [c])
    rw [collapseWsGo_cons]
    cases hw : isWsChar c with
    | true =>
      cases b with
      | true => simp only [if_pos rfl]; rfl
      | false => simp only [if_pos rfl, Bool.false_eq_true, if_false]; rfl
    | false =>
      simp only [Bool.false_eq_true, if_false]
      rfl
  | a :: b' :: t, b => by
    rw [lowUpSplit_two]
    cases hab : (isLowerAlpha a && isUpperAlpha b') with
    | true =>
      rw [if_pos rfl]
      have haw : isWsChar a = false := by
        rw [Bool.and_eq_true] at hab
        exact lower_not_ws a hab.1
      have hbw : isWsChar b' = false := by
        rw [Bool.and_eq_true] at hab
        exact upper_not_ws b' hab.2
      have hsw : isWsChar ' ' = true := by decide
      rw [collapseWsGo_cons, haw]
      simp only [Bool.false_eq_true, if_false]
      rw [collapseWsGo_cons, hsw, if_pos rfl, if_neg Bool.false_ne_true]
      rw [collapseWsGo_cons, hbw]
      simp only [Bool.false_eq_true, if_false]
      rw [collapse_lowUp_comm t false]
      conv_rhs => rw [collapseWsGo_cons, haw]
      simp only [Bool.false_eq_true, if_false]
      conv_rhs => rw [collapseWsGo_cons, hbw]
      simp only [Bool.false_eq_true, if_false]
      rw [lowUpSplit_two, if_pos (by rw [hab])]
    | false =>
      rw [if_neg Bool.false_ne_true]
      cases hw : isWsChar a with
      | true =>
        rw [collapseWsGo_cons, hw, if_pos rfl]
        conv_rhs => rw [collapseWsGo_cons, hw, if_pos rfl]
        cases b with
        | true =>
          simp only [if_pos rfl]
          exact collapse_lowUp_comm (b' :: t) true
        | false =>
          simp only [Bool.false_eq_true, if_false]
          rw [collapse_lowUp_comm (b' :: t) true, lowUp_cons_space]
      | false =>
        rw [collapseWsGo_cons, hw]
        simp only [Bool.false_eq_true, if_false]
        conv_rhs => rw [collapseWsGo_cons, hw]
        simp only [Bool.false_eq_true, if_false]
        rw [collapse_lowUp_comm (b' :: t) false]
        rw [lowUp_cons_of]
        intro x r hx
        rcases collapse_head_false b' t hx with rfl | ⟨rfl, hwb⟩
        · rw [hab]
        · have hu : isUpperAlpha ' ' = false := by decide
          rw [hu]
          exact Bool.and_false _

theorem collapseWs_lowUpSplit_comm (v : List Char) :
    collapseWs (lowUpSplit v) = lowUpSplit (collapseWs v) :=
  collapse_lowUp_comm v false

end Marcus

namespace Marcus

theorem pipeSpaceGo_cons (pending : List Char) (c : Char) (t : List Char) :
    pipeSpaceGo pending (c :: t) =
      if isWsChar c then pipeSpaceGo (c :: pending) t
      else if c = '|' then ' ' :: '|' :: pipeTail t
      else pending.reverse ++ c :: pipeSpaceGo [] t := by
  conv_lhs => unfold pipeSpaceGo

theorem pipeTail_cons (c : Char) (t : List Char) :
    pipeTail (c :: t) =
      if isWsChar c then pipeTail t
      else if c = '|' then ' ' :: ' ' :: '|' :: pipeTail t
      else ' ' :: c :: pipeSpaceGo [] t := by
  conv_lhs => unfold pipeTail

theorem cA_nil : cA [] = [] := rfl

theorem cA_char {c : Char} (t : List Char) (hw : isWsChar c = false) (hp : c ≠ '|') :
    cA (c :: t) = c :: cA t := by
  unfold cA
  rw [pipeSpaceGo_cons, hw]
  simp only [Bool.false_eq_true, if_false]
  rw [if_neg hp, List.reverse_nil, List.nil_append, collapseWsGo_cons, hw]
  simp only [Bool.false_eq_true, if_false]

theorem cA_pipe (t : List Char) : cA ('|' :: t) = ' ' :: '|' :: cC t := by
  unfold cA cC
  rw [pipeSpaceGo_cons]
  have h1 : isWsChar '|' = false := by decide
  rw [h1]
  simp only [Bool.false_eq_true, if_false, if_true]
  rw [collapseWsGo_cons]
  have h2 : isWsChar ' ' = true := by decide
  rw [h2, if_pos rfl, if_neg Bool.false_ne_true, collapseWsGo_cons, h1]
  simp only [Bool.false_eq_true, if_false]

theorem cA_space_nil : cA [' '] = [' '] := rfl

theorem cA_space_pipe (t : List Char) : cA (' ' :: '|' :: t) = ' ' :: '|' :: cC t := by
  unfold cA cC
  rw [pipeSpaceGo_cons]
  have h2 : isWsChar ' ' = true := by decide
  rw [h2, if_pos rfl, pipeSpaceGo_cons]
  have h1 : isWsChar '|' = false := by decide
  rw [h1]
  simp only [Bool.false_eq_true, if_false, if_true]
  rw [collapseWsGo_cons, h2, if_pos rfl, if_neg Bool.false_ne_true, collapseWsGo_cons, h1]
  simp only [Bool.false_eq_true, if_false]

theorem cA_space_char {e : Char} (t : List Char) (hw : isWsChar e = false) (hp : e ≠ '|') :
    cA (' ' :: e :: t) = ' ' :: e :: cA t := by
  unfold cA
  rw [pipeSpaceGo_cons]
  have h2 : isWsChar ' ' = true := by decide
  rw [h2, if_pos rfl, pipeSpaceGo_cons, hw]
  simp only [Bool.false_eq_true, if_false]
  rw [if_neg hp]
  show collapseWsGo false ([' '].reverse ++ e :: pipeSpaceGo [] t) = _
  rw [show ([' '] : List Char).reverse = [' '] from rfl, List.cons_append, List.nil_append]
  rw [collapseWsGo_cons, h2, if_pos rfl, if_neg Bool.false_ne_true, collapseWsGo_cons, hw]
  simp only [Bool.false_eq_true, if_false]

theorem cC_nil : cC [] = [' '] := rfl

theorem cC_space (t : List Char) : cC (' ' :: t) = cC t := by
  unfold cC
  rw [pipeTail_cons]
  have h2 : isWsChar ' ' = true := by decide
  rw [h2, if_pos rfl]

theorem cC_pipe (t : List Char) : cC ('|' :: t) = ' ' :: '|' :: cC t := by
  unfold cC
  rw [pipeTail_cons]
  have h1 : isWsChar '|' = false := by decide
  rw [h1]
  simp only [Bool.false_eq_true, if_false, if_true]
  have h2 : isWsChar ' ' = true := by decide
  rw [collapseWsGo_cons, h2, if_pos rfl, if_neg Bool.false_ne_true]
  rw [collapseWsGo_cons, h2, if_pos rfl, if_pos rfl]
  rw [collapseWsGo_cons, h1]
  simp only [Bool.false_eq_true, if_false]

theorem cC_char {c : Char} (t : List Char) (hw : isWsChar c = false) (hp : c ≠ '|') :
    cC (c :: t) = ' ' :: c :: cA t := by
  unfold cC cA
  rw [pipeTail_cons, hw]
  simp only [Bool.false_eq_true, if_false]
  rw [if_neg hp]
  have h2 : isWsChar ' ' = true := by decide
  rw [collapseWsGo_cons, h2, if_pos rfl, if_neg Bool.false_ne_true, collapseWsGo_cons, hw]
  simp only [Bool.false_eq_true, if_false]

end Marcus

namespace Marcus

theorem outP_nil : OutP [] := ⟨rfl, rfl, rfl, rfl, rfl⟩

theorem outP_single (c : Char) (h : (!isWsChar c || c == ' ') = true) : OutP [c] :=
  ⟨rfl, rfl, rfl, rfl, onlySpaceWs_cons h rfl⟩

theorem outP_cons (a : Char) {l : List Char} (hl : OutP l)
    (hsp : (!isWsChar a || a == ' ') = true)
    (h1 : ∀ x r, l = x :: r → padL a x = true ∧ padR a x = true ∧ noTwoWs a x = true)
    (h2 : ∀ x1 x2 r, l = x1 :: x2 :: r → wsPunct3 a x1 x2 = true) :
    OutP (a :: l) := by
  obtain ⟨hL, hR, hT, h3, hS⟩ := hl
  exact ⟨pairsOk_cons hL (fun x r hx => (h1 x r hx).1),
         pairsOk_cons hR (fun x r hx => (h1 x r hx).2.1),
         pairsOk_cons hT (fun x r hx => (h1 x r hx).2.2),
         triplesOk_cons h3 h2,
         onlySpaceWs_cons hsp hS⟩

theorem padL_true {a x : Char} (h : x ≠ '|' ∨ a = ' ') : padL a x = true := by
  unfold padL
  rcases h with h | rfl
  · rw [show (x == '|') = false from beq_eq_false_iff_ne.mpr h]
    rfl
  · simp

theorem padR_true {a x : Char} (h : a ≠ '|' ∨ x = ' ') : padR a x = true := by
  unfold padR
  rcases h with h | rfl
  · rw [show (a == '|') = false from beq_eq_false_iff_ne.mpr h]
    rfl
  · simp

theorem noTwoWs_true {a x : Char} (h : isWsChar a = false ∨ isWsChar x = false) :
    noTwoWs a x = true := by
  unfold noTwoWs
  rcases h with h | h <;> rw [h] <;> simp

theorem wsPunct3_true {a x1 x2 : Char}
    (h : isWsChar x1 = false ∨ isPunctCh x2 = false ∨ a = '|') : wsPunct3 a x1 x2 = true := by
  unfold wsPunct3
  rcases h with h | h | rfl
  · rw [h]; simp
  · rw [h]; simp
  · simp

theorem onlySpaceWs_tail {c : Char} {t : List Char} (h : onlySpaceWs (c :: t) = true) :
    onlySpaceWs t = true := by
  unfold onlySpaceWs at *
  rw [List.all_cons, Bool.and_eq_true] at h
  exact h.2

theorem onlySpaceWs_head {c : Char} {t : List Char} (h : onlySpaceWs (c :: t) = true)
    (hw : isWsChar c = true) : c = ' ' := by
  unfold onlySpaceWs at h
  rw [List.all_cons, Bool.and_eq_true] at h
  rcases Bool.or_eq_true_iff.mp h.1 with h2 | h2
  · rw [hw] at h2; exact absurd h2 (by decide)
  · exact beq_iff_eq.mp h2

theorem cpPipeBuild {l : List Char} (hl : OutP l) (hh : ∃ r0, l = ' ' :: r0) :
    OutP (' ' :: '|' :: l) := by
  rcases hh with ⟨r0, hr⟩
  have h1 : OutP ('|' :: l) := by
    apply outP_cons '|' hl (by decide)
    · intro x r hx
      rw [hr] at hx
      cases hx
      exact ⟨padL_true (Or.inl (by decide)), padR_true (Or.inr rfl),
        noTwoWs_true (Or.inl (by decide))⟩
    · intro x1 x2 r hx
      exact wsPunct3_true (Or.inr (Or.inr rfl))
  apply outP_cons ' ' h1 (by decide)
  · intro x r hx
    cases hx
    exact ⟨padL_true (Or.inr rfl), padR_true (Or.inl (by decide)),
      noTwoWs_true (Or.inr (by decide))⟩
  · intro x1 x2 r hx
    cases hx
    exact wsPunct3_true (Or.inl (by decide))

end Marcus

namespace Marcus

theorem cp_props : ∀ (v : List Char), onlySpaceWs v = true →
    pairsOk noTwoWs v = true → pairsOk noWsPunct v = true →
    (OutP (cA v) ∧ (∀ x r, cA v = x :: r → x ≠ '|') ∧
     (∀ x1 x2 r, cA v = x1 :: x2 :: r → isWsChar x1 = true → isPunctCh x2 = false)) ∧
    (OutP (cC v) ∧ ∃ r, cC v = ' ' :: r)
  | [], _, _, _ => by
    refine ⟨⟨outP_nil, ?_, ?_⟩, ?_, ⟨[], rfl⟩⟩
    · intro x r h
      rw [cA_nil] at h
      exact List.noConfusion h
    · intro x1 x2 r h
      rw [cA_nil] at h
      exact List.noConfusion h
    · rw [cC_nil]
      exact outP_single ' ' (by decide)
  | [c], h1, h2, h3 => by
    cases hw : isWsChar c with
    | true =>
      have hc : c = ' ' := onlySpaceWs_head h1 hw
      subst hc
      refine ⟨⟨?_, ?_, ?_⟩, ?_, ?_⟩
      · rw [cA_space_nil]
        exact outP_single ' ' (by decide)
      · intro x r h
        rw [cA_space_nil] at h
        injection h with hx hr
        subst hx
        decide
      · intro x1 x2 r h
        rw [cA_space_nil] at h
        injection h with hx hr
        exact List.noConfusion hr
      · rw [cC_space, cC_nil]
        exact outP_single ' ' (by decide)
      · rw [cC_space, cC_nil]
        exact ⟨[], rfl⟩
    | false =>
      by_cases hp : c = '|'
      · subst hp
        have hCnil : OutP (cC ([] : List Char)) := by
          rw [cC_nil]; exact outP_single ' ' (by decide)
        refine ⟨⟨?_, ?_, ?_⟩, ?_, ?_⟩
        · rw [cA_pipe]
          exact cpPipeBuild hCnil ⟨[], cC_nil⟩
        · intro x r h
          rw [cA_pipe] at h
          injection h with hx hr
          subst hx
          decide
        · intro x1 x2 r h hws
          rw [cA_pipe] at h
          injection h with hx hr
          injection hr with hx2 hr2
          subst hx2
          decide
        · rw [cC_pipe]
          exact cpPipeBuild hCnil ⟨[], cC_nil⟩
        · rw [cC_pipe]
          exact ⟨'|' :: cC [], rfl⟩
      · refine ⟨⟨?_, ?_, ?_⟩, ?_, ?_⟩
        · rw [cA_char [] hw hp, cA_nil]
          exact outP_single c (by rw [hw]; rfl)
        · intro x r h
          rw [cA_char [] hw hp, cA_nil] at h
          injection h with hx hr
          subst hx
          exact hp
        · intro x1 x2 r h
          rw [cA_char [] hw hp, cA_nil] at h
          injection h with hx hr
          exact List.noConfusion hr
        · rw [cC_char [] hw hp, cA_nil]
          refine outP_cons ' ' (outP_single c (by rw [hw]; rfl)) (by decide) ?_ ?_
          · intro x r hx
            injection hx with hx hr
            subst hx
            exact ⟨padL_true (Or.inr rfl), padR_true (Or.inl (by decide)),
              noTwoWs_true (Or.inr hw)⟩
          · intro x1 x2 r hx
            injection hx with hx hr
            exact absurd hr (by exact fun h => List.noConfusion h)
        · rw [cC_char [] hw hp, cA_nil]
          exact ⟨[c], rfl⟩
  | a :: b :: t, h1, h2, h3 => by
    have h1b : onlySpaceWs (b :: t) = true := onlySpaceWs_tail h1
    have h2b : pairsOk noTwoWs (b :: t) = true := pairsOk_tail h2
    have h3b : pairsOk noWsPunct (b :: t) = true := pairsOk_tail h3
    have h1t : onlySpaceWs t = true := onlySpaceWs_tail h1b
    have h2t : pairsOk noTwoWs t = true := pairsOk_tail h2b
    have h3t : pairsOk noWsPunct t = true := pairsOk_tail h3b
    have cpb := cp_props (b :: t) h1b h2b h3b
    have cpt := cp_props t h1t h2t h3t
    cases hw : isWsChar a with
    | true =>
      have ha : a = ' ' := onlySpaceWs_head h1 hw
      subst ha
      have hb : isWsChar b = false := by
        have hh := pairsOk_head h2
        unfold noTwoWs at hh
        rw [show isWsChar ' ' = true from by decide] at hh
        cases hbb : isWsChar b
        · rfl
        · rw [hbb] at hh; exact absurd hh (by decide)
      have hbp : isPunctCh b = false := by
        have hh := pairsOk_head h3
        unfold noWsPunct at hh
        rw [show isWsChar ' ' = true from by decide] at hh
        cases hbb : isPunctCh b
        · rfl
        · rw [hbb] at hh; exact absurd hh (by decide)
      by_cases hpb : b = '|'
      · subst hpb
        refine ⟨⟨?_, ?_, ?_⟩, ?_, ?_⟩
        · rw [cA_space_pipe]
          exact cpPipeBuild cpt.2.1 cpt.2.2
        · intro x r h
          rw [cA_space_pipe] at h
          injection h with hx hr
          subst hx
          decide
        · intro x1 x2 r h hws
          rw [cA_space_pipe] at h
          injection h with hx hr
          injection hr with hx2 hr2
          subst hx2
          decide
        · rw [cC_space, cC_pipe]
          exact cpPipeBuild cpt.2.1 cpt.2.2
        · rw [cC_space, cC_pipe]
          exact ⟨'|' :: cC t, rfl⟩
      · refine ⟨⟨?_, ?_, ?_⟩, ?_, ?_⟩
        · rw [cA_space_char t hb hpb]
          have hinner : OutP (b :: cA t) := by
            refine outP_cons b cpt.1.1 (by rw [hb]; rfl) ?_ ?_
            · intro x r hx
              exact ⟨padL_true (Or.inl (cpt.1.2.1 x r hx)), padR_true (Or.inl hpb),
                noTwoWs_true (Or.inl hb)⟩
            · intro x1 x2 r hx
              cases hx1 : isWsChar x1 with
              | false => exact wsPunct3_true (Or.inl hx1)
              | true => exact wsPunct3_true (Or.inr (Or.inl (cpt.1.2.2 x1 x2 r hx hx1)))
          refine outP_cons ' ' hinner (by decide) ?_ ?_
          · intro x r hx
            injection hx with hx hr
            subst hx
            exact ⟨padL_true (Or.inr rfl), padR_true (Or.inl (by decide)),
              noTwoWs_true (Or.inr hb)⟩
          · intro x1 x2 r hx
            injection hx with hx hr
            subst hx
            exact wsPunct3_true (Or.inl hb)
        · intro x r h
          rw [cA_space_char t hb hpb] at h
          injection h with hx hr
          subst hx
          decide
        · intro x1 x2 r h hws
          rw [cA_space_char t hb hpb] at h
          injection h with hx hr
          injection hr with hx2 hr2
          subst hx2
          exact hbp
        · rw [cC_space]
          exact cpb.2.1
        · rw [cC_space]
          exact cpb.2.2
    | false =>
      by_cases hpa : a = '|'
      · subst hpa
        refine ⟨⟨?_, ?_, ?_⟩, ?_, ?_⟩
        · rw [cA_pipe]
          exact cpPipeBuild cpb.2.1 cpb.2.2
        · intro x r h
          rw [cA_pipe] at h
          injection h with hx hr
          subst hx
          decide
        · intro x1 x2 r h hws
          rw [cA_pipe] at h
          injection h with hx hr
          injection hr with hx2 hr2
          subst hx2
          decide
        · rw [cC_pipe]
          exact cpPipeBuild cpb.2.1 cpb.2.2
        · rw [cC_pipe]
          exact ⟨'|' :: cC (b :: t), rfl⟩
      · refine ⟨⟨?_, ?_, ?_⟩, ?_, ?_⟩
        · rw [cA_char (b :: t) hw hpa]
          refine outP_cons a cpb.1.1 (by rw [hw]; rfl) ?_ ?_
          · intro x r hx
            exact ⟨padL_true (Or.inl (cpb.1.2.1 x r hx)), padR_true (Or.inl hpa),
              noTwoWs_true (Or.inl hw)⟩
          · intro x1 x2 r hx
            cases hx1 : isWsChar x1 with
            | false => exact wsPunct3_true (Or.inl hx1)
            | true => exact wsPunct3_true (Or.inr (Or.inl (cpb.1.2.2 x1 x2 r hx hx1)))
        · intro x r h
          rw [cA_char (b :: t) hw hpa] at h
          injection h with hx hr
          subst hx
          exact hpa
        · intro x1 x2 r h hws
          rw [cA_char (b :: t) hw hpa] at h
          injection h with hx hr
          subst hx
          rw [hws] at hw
          exact absurd hw (by decide)
        · rw [cC_char (b :: t) hw hpa]
          have hinner : OutP (a :: cA (b :: t)) := by
            refine outP_cons a cpb.1.1 (by rw [hw]; rfl) ?_ ?_
            · intro x r hx
              exact ⟨padL_true (Or.inl (cpb.1.2.1 x r hx)), padR_true (Or.inl hpa),
                noTwoWs_true (Or.inl hw)⟩
            · intro x1 x2 r hx
              cases hx1 : isWsChar x1 with
              | false => exact wsPunct3_true (Or.inl hx1)
              | true => exact wsPunct3_true (Or.inr (Or.inl (cpb.1.2.2 x1 x2 r hx hx1)))
          refine outP_cons ' ' hinner (by decide) ?_ ?_
          · intro x r hx
            injection hx with hx hr
            subst hx
            exact ⟨padL_true (Or.inr rfl), padR_true (Or.inl (by decide)),
              noTwoWs_true (Or.inr hw)⟩
          · intro x1 x2 r hx
            injection hx with hx hr
            subst hx
            exact wsPunct3_true (Or.inl hw)
        · rw [cC_char (b :: t) hw hpa]
          exact ⟨a :: cA (b :: t), rfl⟩

end Marcus

namespace Marcus

theorem outP_tail {c : Char} {t : List Char} (h : OutP (c :: t)) : OutP t :=
  ⟨pairsOk_tail h.1, pairsOk_tail h.2.1, pairsOk_tail h.2.2.1,
   triplesOk_tail h.2.2.2.1, onlySpaceWs_tail h.2.2.2.2⟩

theorem noLowUp_true {a x : Char} (h : isLowerAlpha a = false ∨ isUpperAlpha x = false) :
    noLowUp a x = true := by
  unfold noLowUp
  rcases h with h | h <;> rw [h] <;> simp

theorem lower_ne_pipe {a : Char} (h : isLowerAlpha a = true) : a ≠ '|' := by
  intro he
  subst he
  exact absurd h (by decide)

theorem upper_ne_pipe {a : Char} (h : isUpperAlpha a = true) : a ≠ '|' := by
  intro he
  subst he
  exact absurd h (by decide)

theorem lowUp_head2 : ∀ (t : List Char) {r1 r2 : Char} {rr : List Char},
    lowUpSplit t = r1 :: r2 :: rr →
    (∃ t3, t = r1 :: r2 :: t3) ∨ ((∃ t3, t = r1 :: t3) ∧ r2 = ' ') := by
  intro t r1 r2 rr h
  cases t with
  | nil => exact absurd h (by rw [show lowUpSplit [] = [] from rfl]; exact fun hh => List.noConfusion hh)
  | cons t1 t' =>
    cases t' with
    | nil =>
      rw [show lowUpSplit [t1] = [t1] from rfl] at h
      injection h with hx hr
      exact absurd hr (by exact fun hh => List.noConfusion hh)
    | cons t2 t'' =>
      rw [lowUpSplit_two] at h
      split at h
      · injection h with hx hr
        injection hr with hx2 hr2
        subst hx
        subst hx2
        exact Or.inr ⟨⟨t2 :: t'', rfl⟩, rfl⟩
      · injection h with hx hr
        subst hx
        rcases lowUpSplit_cons t2 t'' with ⟨r0, hr0⟩
        rw [hr0] at hr
        injection hr with hx2 hr2
        subst hx2
        exact Or.inl ⟨t'', rfl⟩

theorem lowUpSplit_head_inv : ∀ (t : List Char) {x : Char} {r : List Char},
    lowUpSplit t = x :: r → ∃ t3, t = x :: t3 := by
  intro t x r h
  cases t with
  | nil => exact absurd h (by exact fun hh => List.noConfusion hh)
  | cons t1 t2 =>
    rcases lowUpSplit_cons t1 t2 with ⟨r0, hr0⟩
    rw [hr0] at h
    injection h with hx hr
    subst hx
    exact ⟨t2, rfl⟩

theorem lowUp_outP : ∀ (l : List Char), OutP l →
    OutP (lowUpSplit l) ∧ pairsOk noLowUp (lowUpSplit l) = true
  | [], _ => ⟨outP_nil, rfl⟩
  | [c], h => by
    rw [show lowUpSplit [c] = [c] from rfl]
    exact ⟨h, rfl⟩
  | a :: b :: t, h => by
    have hb1 := outP_tail h
    have ihb := lowUp_outP (b :: t) hb1
    have iht := lowUp_outP t (outP_tail hb1)
    rw [lowUpSplit_two]
    cases hab : (isLowerAlpha a && isUpperAlpha b) with
    | true =>
      rw [if_pos rfl]
      rw [Bool.and_eq_true] at hab
      have haw : isWsChar a = false := lower_not_ws a hab.1
      have hap : a ≠ '|' := lower_ne_pipe hab.1
      have hbw : isWsChar b = false := upper_not_ws b hab.2
      have hbpu : isPunctCh b = false := upper_not_punct b hab.2
      have hbp : b ≠ '|' := upper_ne_pipe hab.2
      have hbl : isLowerAlpha b = false := upper_not_lower b hab.2
      have hpadbt : ∀ x r, t = x :: r → padL b x = true := by
        intro x r hx
        subst hx
        exact pairsOk_head (pairsOk_tail h.1)
      have houtB : OutP (b :: lowUpSplit t) := by
        refine outP_cons b iht.1 (by rw [hbw]; rfl) ?_ ?_
        · intro x r hx
          rcases lowUpSplit_head_inv t hx with ⟨t3, ht3⟩
          refine ⟨?_, padR_true (Or.inl hbp), noTwoWs_true (Or.inl hbw)⟩
          exact hpadbt x _ ht3
        · intro x1 x2 r hx
          rcases lowUp_head2 t hx with ⟨t3, ht3⟩ | ⟨⟨t3, ht3⟩, rfl⟩
          · subst ht3
            exact triplesOk_head (triplesOk_tail h.2.2.2.1)
          · exact wsPunct3_true (Or.inr (Or.inl (by decide)))
      have houtSp : OutP (' ' :: b :: lowUpSplit t) := by
        refine outP_cons ' ' houtB (by decide) ?_ ?_
        · intro x r hx
          injection hx with hx hr
          subst hx
          exact ⟨padL_true (Or.inl hbp), padR_true (Or.inl (by decide)),
            noTwoWs_true (Or.inr hbw)⟩
        · intro x1 x2 r hx
          injection hx with hx hr
          subst hx
          exact wsPunct3_true (Or.inl hbw)
      refine ⟨?_, ?_⟩
      · refine outP_cons a houtSp (by rw [haw]; rfl) ?_ ?_
        · intro x r hx
          injection hx with hx hr
          subst hx
          exact ⟨padL_true (Or.inl (by decide)), padR_true (Or.inl hap),
            noTwoWs_true (Or.inl haw)⟩
        · intro x1 x2 r hx
          injection hx with hx hr
          injection hr with hx2 hr2
          subst hx
          subst hx2
          exact wsPunct3_true (Or.inr (Or.inl hbpu))
      · apply pairsOk_cons
        · apply pairsOk_cons
          · apply pairsOk_cons iht.2
            intro x r hx
            exact noLowUp_true (Or.inl hbl)
          · intro x r hx
            injection hx with hx hr
            subst hx
            exact noLowUp_true (Or.inl (by decide))
        · intro x r hx
          injection hx with hx hr
          subst hx
          exact noLowUp_true (Or.inr (by decide))
    | false =>
      rw [if_neg Bool.false_ne_true]
      rcases lowUpSplit_cons b t with ⟨r0, hr0⟩
      have hLab : padL a b = true := pairsOk_head h.1
      have hRab : padR a b = true := pairsOk_head h.2.1
      have hTab : noTwoWs a b = true := pairsOk_head h.2.2.1
      refine ⟨?_, ?_⟩
      · refine outP_cons a ihb.1 ?_ ?_ ?_
        · have := h.2.2.2.2
          unfold onlySpaceWs at this
          rw [List.all_cons, Bool.and_eq_true] at this
          exact this.1
        · intro x r hx
          rw [hr0] at hx
          injection hx with hx hr
          subst hx
          exact ⟨hLab, hRab, hTab⟩
        · intro x1 x2 r hx
          rcases lowUp_head2 (b :: t) hx with ⟨t3, ht3⟩ | ⟨⟨t3, ht3⟩, rfl⟩
          · injection ht3 with hx1 hr1
            subst hx1
            cases t with
            | nil => exact absurd hr1 (by exact fun hh => List.noConfusion hh)
            | cons t1 t'' =>
              injection hr1 with hx2 hr2
              subst hx2
              exact triplesOk_head h.2.2.2.1
          · injection ht3 with hx1 hr1
            subst hx1
            exact wsPunct3_true (Or.inr (Or.inl (by decide)))
      · apply pairsOk_cons ihb.2
        intro x r hx
        rw [hr0] at hx
        injection hx with hx hr
        subst hx
        refine noLowUp_true ?_
        cases hla : isLowerAlpha a with
        | false => exact Or.inl rfl
        | true =>
          cases hub : isUpperAlpha b with
          | false => exact Or.inr rfl
          | true =>
            rw [hla, hub] at hab
            exact absurd hab (by decide)

end Marcus

namespace Marcus

theorem punct_ne_pipe {e : Char} (h : isPunctCh e = true) : e ≠ '|' := by
  intro he
  subst he
  exact absurd h (by decide)

theorem hwp_of_triple {a b c : Char} (h : wsPunct3 a b c = true) (ha : a ≠ '|') :
    (isWsChar b && isPunctCh c) = false := by
  unfold wsPunct3 at h
  cases hx : (isWsChar b && isPunctCh c) with
  | false => rfl
  | true =>
    rw [hx] at h
    simp only [Bool.not_true, Bool.false_or] at h
    exact absurd (beq_iff_eq.mp h) ha

theorem hwpf_of_triples {x : Char} {t : List Char}
    (h : triplesOk wsPunct3 (x :: t) = true) (hx : x ≠ '|') : headWsPunctFree t := by
  intro a b r hab
  subst hab
  exact hwp_of_triple (triplesOk_head h) hx

theorem delWsPunct_del {c e : Char} (t : List Char)
    (h : (isWsChar c && isPunctCh e) = true) :
    delWsPunct (c :: e :: t) = delWsPunct (e :: t) := by
  conv_lhs => unfold delWsPunct
  rw [if_pos h]

theorem delWsPunct_keep {c e : Char} (t : List Char)
    (h : (isWsChar c && isPunctCh e) = false) :
    delWsPunct (c :: e :: t) = c :: delWsPunct (e :: t) := by
  conv_lhs => unfold delWsPunct
  rw [if_neg (by rw [h]; exact Bool.false_ne_true)]

theorem go_ws_step {a : Char} (pending t : List Char) (h : isWsChar a = true) :
    pipeSpaceGo pending (a :: t) = pipeSpaceGo (a :: pending) t := by
  rw [pipeSpaceGo_cons, h, if_pos rfl]

theorem go_pipe_step (pending t : List Char) :
    pipeSpaceGo pending ('|' :: t) = ' ' :: '|' :: pipeTail t := by
  rw [pipeSpaceGo_cons, show isWsChar '|' = false from by decide]
  simp only [Bool.false_eq_true, if_false, if_true]

theorem go_char_step (pending : List Char) {c : Char} (t : List Char)
    (hw : isWsChar c = false) (hp : c ≠ '|') :
    pipeSpaceGo pending (c :: t) = pending.reverse ++ c :: pipeSpaceGo [] t := by
  rw [pipeSpaceGo_cons, hw]
  simp only [Bool.false_eq_true, if_false]
  rw [if_neg hp]

theorem tail_ws_step {a : Char} (t : List Char) (h : isWsChar a = true) :
    pipeTail (a :: t) = pipeTail t := by
  rw [pipeTail_cons, h, if_pos rfl]

theorem tail_pipe_step (t : List Char) :
    pipeTail ('|' :: t) = ' ' :: ' ' :: '|' :: pipeTail t := by
  rw [pipeTail_cons, show isWsChar '|' = false from by decide]
  simp only [Bool.false_eq_true, if_false, if_true]

theorem tail_char_step {c : Char} (t : List Char) (hw : isWsChar c = false) (hp : c ≠ '|') :
    pipeTail (c :: t) = ' ' :: c :: pipeSpaceGo [] t := by
  rw [pipeTail_cons, hw]
  simp only [Bool.false_eq_true, if_false]
  rw [if_neg hp]

theorem del_transparent : ∀ (u : List Char), pairsOk noTwoWs u = true →
    triplesOk wsPunct3 u = true →
    (headWsPunctFree u → pipeSpaceGo [] (delWsPunct u) = pipeSpaceGo [] u) ∧
    pipeTail (delWsPunct u) = pipeTail u
  | [], _, _ => ⟨fun _ => rfl, rfl⟩
  | [_], _, _ => ⟨fun _ => rfl, rfl⟩
  | a :: b :: t, h2, h3 => by
    have h2b : pairsOk noTwoWs (b :: t) = true := pairsOk_tail h2
    have h3b : triplesOk wsPunct3 (b :: t) = true := triplesOk_tail h3
    have h2t : pairsOk noTwoWs t = true := pairsOk_tail h2b
    have h3t : triplesOk wsPunct3 t = true := triplesOk_tail h3b
    cases hwa : isWsChar a with
    | false =>
      have hz : delWsPunct (a :: b :: t) = a :: delWsPunct (b :: t) :=
        delWsPunct_cons_nonws a (b :: t) hwa
      by_cases hpa : a = '|'
      · subst hpa
        have ihT := (del_transparent (b :: t) h2b h3b).2
        constructor
        · intro hf
          rw [hz, go_pipe_step, go_pipe_step, ihT]
        · rw [hz, tail_pipe_step, tail_pipe_step, ihT]
      · have ihG := (del_transparent (b :: t) h2b h3b).1 (hwpf_of_triples h3 hpa)
        constructor
        · intro hf
          rw [hz, go_char_step [] _ hwa hpa, go_char_step [] _ hwa hpa, ihG]
        · rw [hz, tail_char_step _ hwa hpa, tail_char_step _ hwa hpa, ihG]
    | true =>
      have hwb : isWsChar b = false := by
        have hh := pairsOk_head h2
        unfold noTwoWs at hh
        rw [hwa] at hh
        cases hbb : isWsChar b
        · rfl
        · rw [hbb] at hh; exact absurd hh (by decide)
      cases hpb : isPunctCh b with
      | true =>
        have hzd : delWsPunct (a :: b :: t) = b :: delWsPunct t := by
          rw [delWsPunct_del t (by rw [hwa, hpb]; rfl)]
          exact delWsPunct_cons_nonws b t hwb
        have hbp : b ≠ '|' := punct_ne_pipe hpb
        have ihG := (del_transparent t h2t h3t).1 (hwpf_of_triples h3b hbp)
        constructor
        · intro hf
          have hcontra := hf a b t rfl
          rw [hwa, hpb] at hcontra
          exact absurd hcontra (by decide)
        · rw [hzd, tail_ws_step _ hwa, tail_char_step _ hwb hbp, tail_char_step _ hwb hbp, ihG]
      | false =>
        have hzk : delWsPunct (a :: b :: t) = a :: b :: delWsPunct t := by
          rw [delWsPunct_keep t (by rw [hpb]; exact Bool.and_false _)]
          rw [delWsPunct_cons_nonws b t hwb]
        by_cases hbpipe : b = '|'
        · subst hbpipe
          have ihT := (del_transparent t h2t h3t).2
          constructor
          · intro hf
            rw [hzk, go_ws_step _ _ hwa, go_ws_step _ _ hwa, go_pipe_step, go_pipe_step, ihT]
          · rw [hzk, tail_ws_step _ hwa, tail_ws_step _ hwa, tail_pipe_step, tail_pipe_step, ihT]
        · have ihG := (del_transparent t h2t h3t).1 (hwpf_of_triples h3b hbpipe)
          constructor
          · intro hf
            rw [hzk, go_ws_step _ _ hwa, go_ws_step _ _ hwa, go_char_step _ _ hwb hbpipe,
              go_char_step _ _ hwb hbpipe, ihG]
          · rw [hzk, tail_ws_step _ hwa, tail_ws_step _ hwa, tail_char_step _ hwb hbpipe,
              tail_char_step _ hwb hbpipe, ihG]

end Marcus

namespace Marcus

theorem padF_pipe (t : List Char) : padF ('|' :: t) = [' '] := by simp [padF]

theorem padF_other {c : Char} (t : List Char) (h : c ≠ '|') : padF (c :: t) = [] := by
  simp [padF, h]

theorem padB_nil : padB ([] : List Char) = [] := by simp [padB]

theorem padB_single (c : Char) : padB [c] = if c = '|' then [' '] else [] := by
  unfold padB
  rw [show ([c] : List Char).getLast? = some c from rfl]
  simp only [Option.some.injEq]

theorem padB_cons_cons (a b : Char) (t : List Char) :
    padB (a :: b :: t) = padB (b :: t) := by
  unfold padB
  rw [List.getLast?_cons_cons]

theorem ne_space_of_not_ws {e : Char} (h : isWsChar e = false) : e ≠ ' ' := by
  intro he
  subst he
  exact absurd h (by decide)

theorem padF_nil_of {e : Char} (t' : List Char) (he : e ≠ ' ')
    (hL : pairsOk padL (e :: t') = true) : padF t' = [] := by
  cases t' with
  | nil => rfl
  | cons x r =>
    by_cases hx : x = '|'
    · subst hx
      have hh := pairsOk_head hL
      unfold padL at hh
      rcases Bool.or_eq_true_iff.mp hh with h0 | h0
      · exact absurd h0 (by decide)
      · exact absurd (beq_iff_eq.mp h0) he
    · simp [padF, hx]

theorem shape_after_pipe {t : List Char} (hR : pairsOk padR ('|' :: t) = true) :
    t = [] ∨ ∃ t', t = ' ' :: t' := by
  cases t with
  | nil => exact Or.inl rfl
  | cons x r =>
    have hh := pairsOk_head hR
    unfold padR at hh
    rcases Bool.or_eq_true_iff.mp hh with h0 | h0
    · exact absurd h0 (by decide)
    · exact Or.inr ⟨r, by rw [beq_iff_eq.mp h0]⟩

theorem cp_pad : ∀ (u : List Char), onlySpaceWs u = true → pairsOk noTwoWs u = true →
    pairsOk padL u = true → pairsOk padR u = true →
    (cA u = padF u ++ (u ++ padB u)) ∧
    ((u = [] ∨ ∃ t0, u = ' ' :: t0) →
      cC u = u ++ (if u.isEmpty then [' '] else padB u))
  | [], _, _, _, _ => by
    constructor
    · rw [cA_nil, padB_nil]
      rfl
    · intro hsh
      rw [cC_nil]
      rfl
  | [c], h1, h2, h3, h4 => by
    constructor
    · cases hw : isWsChar c with
      | true =>
        have hc : c = ' ' := onlySpaceWs_head h1 hw
        subst hc
        rw [cA_space_nil, padB_single]
        rfl
      | false =>
        by_cases hp : c = '|'
        · subst hp
          rw [cA_pipe, cC_nil, padF_pipe, padB_single]
          rfl
        · rw [cA_char [] hw hp, cA_nil, padF_other [] hp, padB_single, if_neg hp]
          rfl
    · intro hsh
      rcases hsh with hsh | ⟨t0, hsh⟩
      · exact absurd hsh (by exact fun hh => List.noConfusion hh)
      · injection hsh with hc ht
        subst hc
        rw [cC_space, cC_nil, padB_single]
        rfl
  | a :: b :: t, h1, h2, h3, h4 => by
    have h1b := onlySpaceWs_tail h1
    have h2b : pairsOk noTwoWs (b :: t) = true := pairsOk_tail h2
    have h3b : pairsOk padL (b :: t) = true := pairsOk_tail h3
    have h4b : pairsOk padR (b :: t) = true := pairsOk_tail h4
    have h1t := onlySpaceWs_tail h1b
    have h2t : pairsOk noTwoWs t = true := pairsOk_tail h2b
    have h3t : pairsOk padL t = true := pairsOk_tail h3b
    have h4t : pairsOk padR t = true := pairsOk_tail h4b
    constructor
    · cases hw : isWsChar a with
      | true =>
        have ha : a = ' ' := onlySpaceWs_head h1 hw
        subst ha
        have hb : isWsChar b = false := by
          have hh := pairsOk_head h2
          unfold noTwoWs at hh
          rw [show isWsChar ' ' = true from by decide] at hh
          cases hbb : isWsChar b
          · rfl
          · rw [hbb] at hh; exact absurd hh (by decide)
        by_cases hpb : b = '|'
        · subst hpb
          rw [cA_space_pipe]
          have hsh := shape_after_pipe h4b
          have hF2 := (cp_pad t h1t h2t h3t h4t).2 hsh
          rw [hF2, padF_other _ (by decide), padB_cons_cons]
          cases t with
          | nil => simp [padB_single]
          | cons x r =>
            simp only [List.isEmpty_cons, Bool.false_eq_true, if_false]
            rfl
        · rw [cA_space_char t hb hpb]
          have hF1 := (cp_pad t h1t h2t h3t h4t).1
          rw [hF1, padF_nil_of t (ne_space_of_not_ws hb) h3b]
          rw [padF_other _ (by decide), padB_cons_cons]
          cases t with
          | nil =>
            rw [padB_single, if_neg hpb, padB_nil]
            rfl
          | cons x r =>
            rw [padB_cons_cons]
            rfl
      | false =>
        by_cases hpa : a = '|'
        · subst hpa
          rw [cA_pipe]
          have hsh := shape_after_pipe h4
          rcases hsh with hsh | ⟨t0, hsh⟩
          · exact absurd hsh (by exact fun hh => List.noConfusion hh)
          · injection hsh with hbeq ht0
            subst hbeq
            subst ht0
            have hF2 := (cp_pad (' ' :: t) h1b h2b h3b h4b).2 (Or.inr ⟨t, rfl⟩)
            rw [hF2, padF_pipe, padB_cons_cons]
            rfl
        · rw [cA_char (b :: t) hw hpa]
          have hF1 := (cp_pad (b :: t) h1b h2b h3b h4b).1
          rw [hF1, padF_nil_of (b :: t) (ne_space_of_not_ws hw) h3]
          rw [padF_other _ hpa, padB_cons_cons]
          rfl
    · intro hsh
      rcases hsh with hsh | ⟨t0, hsh⟩
      · exact absurd hsh (by exact fun hh => List.noConfusion hh)
      · injection hsh with ha ht0
        subst ha
        subst ht0
        rw [cC_space]
        have hb : isWsChar b = false := by
          have hh := pairsOk_head h2
          unfold noTwoWs at hh
          rw [show isWsChar ' ' = true from by decide] at hh
          cases hbb : isWsChar b
          · rfl
          · rw [hbb] at hh; exact absurd hh (by decide)
        by_cases hpb : b = '|'
        · subst hpb
          rw [cC_pipe]
          have hsh2 := shape_after_pipe h4b
          have hF2 := (cp_pad t h1t h2t h3t h4t).2 hsh2
          rw [hF2, padB_cons_cons]
          cases t with
          | nil => rfl
          | cons x r =>
            rw [padB_cons_cons]
            rfl
        · rw [cC_char t hb hpb]
          have hF1 := (cp_pad t h1t h2t h3t h4t).1
          rw [hF1, padF_nil_of t (ne_space_of_not_ws hb) h3b, padB_cons_cons]
          cases t with
          | nil =>
            rw [padB_single, if_neg hpb, padB_nil]
            rfl
          | cons x r =>
            rw [padB_cons_cons]
            rfl

end Marcus

namespace Marcus

theorem ws_not_lower {c : Char} (h : isWsChar c = true) : isLowerAlpha c = false := by
  simp only [isWsChar, Bool.or_eq_true, beq_iff_eq] at h
  simp only [isLowerAlpha, Bool.and_eq_false_iff, decide_eq_false_iff_not, not_le]
  omega

theorem ws_not_upper {c : Char} (h : isWsChar c = true) : isUpperAlpha c = false := by
  simp only [isWsChar, Bool.or_eq_true, beq_iff_eq] at h
  simp only [isUpperAlpha, Bool.and_eq_false_iff, decide_eq_false_iff_not, not_le]
  omega

theorem pipe_noLowUp : ∀ (v : List Char), pairsOk noLowUp v = true →
    pairsOk noTwoWs v = true →
    (pairsOk noLowUp (pipeSpaceGo [] v) = true ∧
      (∀ e r, pipeSpaceGo [] v = e :: r → e = ' ' ∨ ∃ t2, v = e :: t2)) ∧
    (∀ w, isWsChar w = true → (∀ d u, v = d :: u → isWsChar d = false) →
      pairsOk noLowUp (pipeSpaceGo [w] v) = true ∧
      (∀ e r, pipeSpaceGo [w] v = e :: r → e = ' ' ∨ e = w)) ∧
    (pairsOk noLowUp (pipeTail v) = true ∧
      (∀ e r, pipeTail v = e :: r → e = ' ')) := by
  intro v
  induction v with
  | nil =>
    intro hL hT
    refine ⟨⟨rfl, ?_⟩, ?_, rfl, ?_⟩
    · intro e r h; exact absurd h (by exact fun hh => List.noConfusion hh)
    · intro w hw hhead
      refine ⟨rfl, ?_⟩
      intro e r h
      injection h with he hr
      exact Or.inr he.symm
    · intro e r h
      injection h with he hr
      exact he.symm
  | cons c t ih =>
    intro hL hT
    have ihh := ih (pairsOk_tail hL) (pairsOk_tail hT)
    have hpairL : ∀ x r, t = x :: r → noLowUp c x = true := by
      intro x r hx
      subst hx
      exact pairsOk_head hL
    constructor
    constructor
    · -- pairsOk noLowUp (go [] (c :: t))
      cases hw : isWsChar c with
      | true =>
        rw [go_ws_step [] t hw]
        have hheadok : ∀ d u, t = d :: u → isWsChar d = false := by
          intro d u hd
          subst hd
          have hh := pairsOk_head hT
          unfold noTwoWs at hh
          rw [hw] at hh
          cases hdd : isWsChar d
          · rfl
          · rw [hdd] at hh; exact absurd hh (by decide)
        exact (ihh.2.1 c hw hheadok).1
      | false =>
        by_cases hp : c = '|'
        · subst hp
          rw [go_pipe_step]
          apply pairsOk_cons
          · apply pairsOk_cons ihh.2.2.1
            intro e r he
            have he2 := ihh.2.2.2 e r he
            subst he2
            exact noLowUp_true (Or.inl (by decide))
          · intro d u hd
            injection hd with hd hu
            subst hd
            exact noLowUp_true (Or.inr (by decide))
        · rw [go_char_step [] t hw hp, List.reverse_nil, List.nil_append]
          apply pairsOk_cons ihh.1.1
          intro e r he
          rcases ihh.1.2 e r he with rfl | ⟨t2, ht2⟩
          · exact noLowUp_true (Or.inr (by decide))
          · subst ht2
            exact pairsOk_head hL
    · -- head fact for go [] (c :: t)
      intro e r he
      cases hw : isWsChar c with
      | true =>
        rw [go_ws_step [] t hw] at he
        have hheadok : ∀ d u, t = d :: u → isWsChar d = false := by
          intro d u hd
          subst hd
          have hh := pairsOk_head hT
          unfold noTwoWs at hh
          rw [hw] at hh
          cases hdd : isWsChar d
          · rfl
          · rw [hdd] at hh; exact absurd hh (by decide)
        rcases (ihh.2.1 c hw hheadok).2 e r he with rfl | rfl
        · exact Or.inl rfl
        · exact Or.inr ⟨t, rfl⟩
      | false =>
        by_cases hp : c = '|'
        · subst hp
          rw [go_pipe_step] at he
          injection he with he hr
          exact Or.inl he.symm
        · rw [go_char_step [] t hw hp, List.reverse_nil, List.nil_append] at he
          injection he with he hr
          exact Or.inr ⟨t, by rw [he]⟩
    constructor
    · -- pending variant
      intro w hww hhead
      cases t with
      | nil =>
        cases hw : isWsChar c with
        | true => exact absurd (hhead c [] rfl) (by rw [hw]; decide)
        | false =>
          by_cases hp : c = '|'
          · subst hp
            rw [go_pipe_step]
            constructor
            · decide
            · intro e r he
              injection he with he hr
              exact Or.inl he.symm
          · rw [go_char_step [w] [] hw hp]
            constructor
            · have h0 : noLowUp w c = true := noLowUp_true (Or.inl (ws_not_lower hww))
              show (noLowUp w c && pairsOk noLowUp [c]) = true
              rw [h0]
              rfl
            · intro e r he
              injection he with he hr
              exact Or.inr he.symm
      | cons d u =>
        have hcd : isWsChar c = false := hhead c (d :: u) rfl
        by_cases hp : c = '|'
        · subst hp
          rw [go_pipe_step]
          constructor
          · apply pairsOk_cons
            · apply pairsOk_cons ihh.2.2.1
              intro e r he
              rw [ihh.2.2.2 e r he]
              exact noLowUp_true (Or.inl (by decide))
            · intro d2 u2 hd
              injection hd with hd hu
              subst hd
              exact noLowUp_true (Or.inr (by decide))
          · intro e r he
            injection he with he hr
            exact Or.inl he.symm
        · rw [go_char_step [w] (d :: u) hcd hp]
          constructor
          · show pairsOk noLowUp (w :: c :: pipeSpaceGo [] (d :: u)) = true
            apply pairsOk_cons
            · apply pairsOk_cons ihh.1.1
              intro e r he
              rcases ihh.1.2 e r he with rfl | ⟨t2, ht2⟩
              · exact noLowUp_true (Or.inr (by decide))
              · injection ht2 with hde ht2b
                subst hde
                exact pairsOk_head hL
            · intro d2 u2 hd
              injection hd with hd hu
              subst hd
              exact noLowUp_true (Or.inl (ws_not_lower hww))
          · intro e r he
            injection he with he hr
            exact Or.inr he.symm
    · -- pipeTail
      cases hw : isWsChar c with
      | true =>
        rw [tail_ws_step t hw]
        exact ihh.2.2
      | false =>
        by_cases hp : c = '|'
        · subst hp
          rw [tail_pipe_step]
          constructor
          · apply pairsOk_cons
            · apply pairsOk_cons
              · apply pairsOk_cons ihh.2.2.1
                intro e r he
                have he2 := ihh.2.2.2 e r he
                subst he2
                exact noLowUp_true (Or.inl (by decide))
              · intro d2 u2 hd
                injection hd with hd hu
                subst hd
                exact noLowUp_true (Or.inr (by decide))
            · intro d2 u2 hd
              injection hd with hd hu
              subst hd
              exact noLowUp_true (Or.inl (by decide))
          · intro e r he
            injection he with he hr
            exact he.symm
        · rw [tail_char_step t hw hp]
          constructor
          · apply pairsOk_cons
            · apply pairsOk_cons ihh.1.1
              intro e r he
              rcases ihh.1.2 e r he with rfl | ⟨t2, ht2⟩
              · exact noLowUp_true (Or.inr (by decide))
              · subst ht2
                exact pairsOk_head hL
            · intro d2 u2 hd
              injection hd with hd hu
              subst hd
              exact noLowUp_true (Or.inl (by decide))
          · intro e r he
            injection he with he hr
            exact he.symm

end Marcus

namespace Marcus

theorem pipe_mem : ∀ (v pending : List Char) (c : Char),
    (c ∈ pipeSpaceGo pending v → c ∈ v ∨ c ∈ pending ∨ c = ' ' ∨ c = '|') ∧
    (c ∈ pipeTail v → c ∈ v ∨ c = ' ' ∨ c = '|') := by
  intro v
  induction v with
  | nil =>
    intro pending c
    constructor
    · intro h
      unfold pipeSpaceGo at h
      rw [List.mem_reverse] at h
      exact Or.inr (Or.inl h)
    · intro h
      unfold pipeTail at h
      rcases List.mem_cons.mp h with rfl | h2
      · exact Or.inr (Or.inl rfl)
      · exact absurd h2 (by simp)
  | cons a t ih =>
    intro pending c
    constructor
    · intro h
      rw [pipeSpaceGo_cons] at h
      split at h
      · rcases (ih (a :: pending) c).1 h with h2 | h2 | h2 | h2
        · exact Or.inl (List.mem_cons_of_mem a h2)
        · rcases List.mem_cons.mp h2 with rfl | h3
          · exact Or.inl (List.mem_cons_self _ _)
          · exact Or.inr (Or.inl h3)
        · exact Or.inr (Or.inr (Or.inl h2))
        · exact Or.inr (Or.inr (Or.inr h2))
      · split at h
        · rcases List.mem_cons.mp h with rfl | h2
          · exact Or.inr (Or.inr (Or.inl rfl))
          · rcases List.mem_cons.mp h2 with rfl | h3
            · exact Or.inr (Or.inr (Or.inr rfl))
            · rcases (ih [] c).2 h3 with h4 | h4 | h4
              · exact Or.inl (List.mem_cons_of_mem a h4)
              · exact Or.inr (Or.inr (Or.inl h4))
              · exact Or.inr (Or.inr (Or.inr h4))
        · rcases List.mem_append.mp h with h2 | h2
          · rw [List.mem_reverse] at h2
            exact Or.inr (Or.inl h2)
          · rcases List.mem_cons.mp h2 with rfl | h3
            · exact Or.inl (List.mem_cons_self _ _)
            · rcases (ih [] c).1 h3 with h4 | h4 | h4 | h4
              · exact Or.inl (List.mem_cons_of_mem a h4)
              · exact absurd h4 (by simp)
              · exact Or.inr (Or.inr (Or.inl h4))
              · exact Or.inr (Or.inr (Or.inr h4))
    · intro h
      rw [pipeTail_cons] at h
      split at h
      · rcases (ih pending c).2 h with h2 | h2 | h2
        · exact Or.inl (List.mem_cons_of_mem a h2)
        · exact Or.inr (Or.inl h2)
        · exact Or.inr (Or.inr h2)
      · split at h
        · rcases List.mem_cons.mp h with rfl | h2
          · exact Or.inr (Or.inl rfl)
          · rcases List.mem_cons.mp h2 with rfl | h3
            · exact Or.inr (Or.inl rfl)
            · rcases List.mem_cons.mp h3 with rfl | h4
              · exact Or.inr (Or.inr rfl)
              · rcases (ih pending c).2 h4 with h5 | h5 | h5
                · exact Or.inl (List.mem_cons_of_mem a h5)
                · exact Or.inr (Or.inl h5)
                · exact Or.inr (Or.inr h5)
        · rcases List.mem_cons.mp h with rfl | h2
          · exact Or.inr (Or.inl rfl)
          · rcases List.mem_cons.mp h2 with rfl | h3
            · exact Or.inl (List.mem_cons_self _ _)
            · rcases (ih [] c).1 h3 with h4 | h4 | h4 | h4
              · exact Or.inl (List.mem_cons_of_mem a h4)
              · exact absurd h4 (by simp)
              · exact Or.inr (Or.inl h4)
              · exact Or.inr (Or.inr h4)

theorem pipeSpace_mem (v : List Char) (c : Char) (h : c ∈ pipeSpaceGo [] v) :
    c ∈ v ∨ c = ' ' ∨ c = '|' := by
  rcases (pipe_mem v [] c).1 h with h2 | h2 | h2 | h2
  · exact Or.inl h2
  · exact absurd h2 (by simp)
  · exact Or.inr (Or.inl h2)
  · exact Or.inr (Or.inr h2)

theorem stripL_cons_space (l : List Char) : stripL (' ' :: l) = stripL l := by
  unfold stripL
  rw [List.dropWhile_cons, if_pos (by decide)]

theorem stripL_append_space (l : List Char) : stripL (l ++ [' ']) = stripL l := by
  unfold stripL
  rw [List.dropWhile_append]
  cases hD : l.dropWhile isWsChar with
  | nil => rfl
  | cons d r =>
    simp only [List.isEmpty_cons, Bool.false_eq_true, if_false]
    rw [List.reverse_append]
    rw [show ([' '] : List Char).reverse = [' '] from rfl]
    rw [show ([' '] ++ (d :: r).reverse : List Char) = ' ' :: (d :: r).reverse from rfl]
    rw [List.dropWhile_cons, if_pos (by decide)]

theorem stripL_head_nonws (l : List Char) {c : Char} {r : List Char}
    (h : stripL l = c :: r) : isWsChar c = false := by
  rcases exists_append_dropWhile isWsChar (l.dropWhile isWsChar).reverse with ⟨u, hu⟩
  have hA : l.dropWhile isWsChar = c :: (r ++ u.reverse) := by
    have h2 := congrArg List.reverse hu
    rw [List.reverse_reverse, List.reverse_append] at h2
    unfold stripL at h
    rw [h] at h2
    simpa using h2
  exact dropWhile_first_false isWsChar l _ _ hA

theorem padF_cases (l : List Char) : padF l = [] ∨ padF l = [' '] := by
  cases l with
  | nil => exact Or.inl rfl
  | cons c t =>
    by_cases h : c = '|'
    · subst h; exact Or.inr (padF_pipe t)
    · exact Or.inl (padF_other t h)

theorem padB_cases (l : List Char) : padB l = [] ∨ padB l = [' '] := by
  unfold padB
  split
  · exact Or.inr rfl
  · exact Or.inl rfl

theorem stripL_pads (l p q : List Char) (hp : p = [] ∨ p = [' '])
    (hq : q = [] ∨ q = [' ']) : stripL (p ++ (l ++ q)) = stripL l := by
  have hbase : stripL (l ++ q) = stripL l := by
    rcases hq with rfl | rfl
    · rw [List.append_nil]
    · exact stripL_append_space l
  rcases hp with rfl | rfl
  · rw [List.nil_append, hbase]
  · rw [show ([' '] ++ (l ++ q) : List Char) = ' ' :: (l ++ q) from rfl]
    rw [stripL_cons_space, hbase]

end Marcus

namespace Marcus

theorem sens_mono {L M : List Char}
    (hL : ∀ c ∈ L, normSensitiveChars.contains c = false)
    (h : ∀ c ∈ M, c ∈ L ∨ c = ' ') :
    ∀ c ∈ M, normSensitiveChars.contains c = false := by
  intro c hc
  rcases h c hc with h2 | rfl
  · exact hL c h2
  · decide

theorem sens_facts {l : List Char}
    (h : ∀ c ∈ l, normSensitiveChars.contains c = false) :
    (∀ c ∈ l, c ≠ '-') ∧ (∀ c ∈ l, c ≠ '~') ∧ (∀ c ∈ l, ligChars.contains c = false) := by
  have key : ∀ c ∈ l, ∀ x ∈ normSensitiveChars, ¬ c = x := by
    intro c hc
    have h2 := h c hc
    rw [List.contains_eq_any_beq] at h2
    simp only [List.any_eq_false, beq_iff_eq] at h2
    exact h2
  refine ⟨?_, ?_, ?_⟩
  · intro c hc; exact key c hc '-' (by decide)
  · intro c hc; exact key c hc '~' (by decide)
  · intro c hc
    rw [List.contains_eq_any_beq]
    simp only [List.any_eq_false, beq_iff_eq]
    intro x hx
    refine key c hc x ?_
    simp only [ligChars, List.mem_cons, List.not_mem_nil, or_false] at hx
    unfold normSensitiveChars
    rcases hx with rfl | rfl | rfl | rfl
    all_goals simp

end Marcus

namespace Marcus

theorem normCore_eq (l : List Char)
    (hN : ∀ c ∈ l, normSensitiveChars.contains c = false) :
    OutP (normMid l) ∧ pairsOk noLowUp (normMid l) = true ∧
    (∀ c ∈ normMid l, normSensitiveChars.contains c = false) ∧
    stripL (normMid l) = normMid l ∧
    finalTidy (hyphenJoin (stripLigs (lowUpSplit (tildeDrop (pipeSpace
      (dropWsPunct (collapseWs (nlToSpace l)))))))) = normMid l := by
  have hN1 : ∀ c ∈ nlToSpace l, normSensitiveChars.contains c = false :=
    sens_mono hN (nlToSpace_mem l)
  have h2sp := collapseWs_onlySpace (nlToSpace l)
  have h2tw := collapseWs_noTwoWs (nlToSpace l)
  have hN2 : ∀ c ∈ collapseWs (nlToSpace l), normSensitiveChars.contains c = false :=
    sens_mono hN1 (fun c hc => collapseWsGo_mem (nlToSpace l) false c hc)
  have hdp := delWsPunct_pairs (collapseWs (nlToSpace l)) h2tw
  have h3sp : onlySpaceWs (delWsPunct (collapseWs (nlToSpace l))) = true :=
    onlySpaceWs_mono h2sp (fun c hc => Or.inl (delWsPunct_mem _ c hc))
  have hN3 : ∀ c ∈ delWsPunct (collapseWs (nlToSpace l)),
      normSensitiveChars.contains c = false :=
    fun c hc => hN2 c (delWsPunct_mem _ c hc)
  have hcp := cp_props (delWsPunct (collapseWs (nlToSpace l))) h3sp hdp.2 hdp.1
  have hlu := lowUp_outP (cA (delWsPunct (collapseWs (nlToSpace l)))) hcp.1.1
  have hmemA : ∀ c ∈ cA (delWsPunct (collapseWs (nlToSpace l))),
      normSensitiveChars.contains c = false := by
    intro c hc
    unfold cA at hc
    rcases collapseWsGo_mem _ false c hc with h2 | rfl
    · rcases pipeSpace_mem _ c h2 with h3 | rfl | rfl
      · exact hN3 c h3
      · decide
      · decide
    · decide
  have hmem6 : ∀ c ∈ lowUpSplit (cA (delWsPunct (collapseWs (nlToSpace l)))),
      normSensitiveChars.contains c = false :=
    sens_mono hmemA (lowUpSplit_mem _)
  have hmemY : ∀ c ∈ normMid l, normSensitiveChars.contains c = false := by
    intro c hc
    exact hmem6 c (stripL_mem _ c hc)
  have hinf := stripL_infix (lowUpSplit (cA (delWsPunct (collapseWs (nlToSpace l)))))
  have hOut6 := (lowUp_outP _ hcp.1.1).1
  have hOutY : OutP (normMid l) := by
    refine ⟨ pairsOk_infix hOut6.1 hinf, pairsOk_infix hOut6.2.1 hinf,
      pairsOk_infix hOut6.2.2.1 hinf, triplesOk_infix hOut6.2.2.2.1 hinf, ?_⟩
    exact onlySpaceWs_mono hOut6.2.2.2.2 (fun c hc => Or.inl (stripL_mem _ c hc))
  refine ⟨hOutY, pairsOk_infix (lowUp_outP _ hcp.1.1).2 hinf, hmemY, stripL_idem _, ?_⟩
  have hN3f := sens_facts hN3
  have hmemP : ∀ c ∈ pipeSpace (delWsPunct (collapseWs (nlToSpace l))),
      c ∈ delWsPunct (collapseWs (nlToSpace l)) ∨ c = ' ' ∨ c = '|' :=
    fun c hc => pipeSpace_mem _ c hc
  rw [dropWsPunct_eq_delWsPunct _ h2tw]
  rw [tildeDrop_id _ ?htilde]
  case htilde =>
    intro c hc
    rcases hmemP c hc with h2 | rfl | rfl
    · exact hN3f.2.1 c h2
    · decide
    · decide
  rw [stripLigs_id _ ?hlig]
  case hlig =>
    intro c hc
    rcases lowUpSplit_mem _ c hc with h2 | rfl
    · rcases hmemP c h2 with h3 | rfl | rfl
      · exact hN3f.2.2 c h3
      · decide
      · decide
    · decide
  rw [hyphenJoin_id _ ?hhyp]
  case hhyp =>
    intro c hc
    rcases lowUpSplit_mem _ c hc with h2 | rfl
    · rcases hmemP c h2 with h3 | rfl | rfl
      · exact hN3f.1 c h3
      · decide
      · decide
    · decide
  unfold finalTidy
  rw [collapseWs_lowUpSplit_comm]
  rfl

theorem normPass_id (y : List Char)
    (hOut : OutP y) (hLU : pairsOk noLowUp y = true)
    (hcs : ∀ c ∈ y, normSensitiveChars.contains c = false)
    (hstr : stripL y = y) :
    finalTidy (hyphenJoin (stripLigs (lowUpSplit (tildeDrop (pipeSpace
      (dropWsPunct (collapseWs (nlToSpace y)))))))) = y := by
  obtain ⟨hpL, hpR, hTw, hTr, hSp⟩ := hOut
  have hcsf := sens_facts hcs
  rw [nlToSpace_id y (no_nl_of_onlySpace hSp)]
  rw [collapseWs_id y hSp hTw]
  rw [dropWsPunct_eq_delWsPunct y hTw]
  have hfree : headWsPunctFree y := by
    intro a b r hab
    have h0 : stripL y = a :: (b :: r) := by rw [hstr, hab]
    have ha : isWsChar a = false := stripL_head_nonws y h0
    rw [ha]
    rfl
  have htr : pipeSpace (delWsPunct y) = pipeSpace y :=
    (del_transparent y hTw hTr).1 hfree
  rw [htr]
  have hmemP : ∀ c ∈ pipeSpace y, c ∈ y ∨ c = ' ' ∨ c = '|' :=
    fun c hc => pipeSpace_mem _ c hc
  rw [tildeDrop_id _ ?htilde]
  case htilde =>
    intro c hc
    rcases hmemP c hc with h2 | rfl | rfl
    · exact hcsf.2.1 c h2
    · decide
    · decide
  have hplu : pairsOk noLowUp (pipeSpace y) = true :=
    (pipe_noLowUp y hLU hTw).1.1
  rw [lowUpSplit_id _ hplu]
  rw [stripLigs_id _ ?hlig]
  case hlig =>
    intro c hc
    rcases hmemP c hc with h2 | rfl | rfl
    · exact hcsf.2.2 c h2
    · decide
    · decide
  rw [hyphenJoin_id _ ?hhyp]
  case hhyp =>
    intro c hc
    rcases hmemP c hc with h2 | rfl | rfl
    · exact hcsf.1 c h2
    · decide
    · decide
  unfold finalTidy
  rw [show collapseWs (pipeSpace y) = cA y from rfl]
  rw [(cp_pad y hSp hTw hpL hpR).1]
  rw [stripL_pads y _ _ (padF_cases y) (padB_cases y)]
  exact hstr

/-- C8: amended idempotence: the full normalization sequence of
combine_to_paragraph is idempotent on every string that contains
none of the repair-sensitive characters of normSensitiveChars
(hyphen, tilde and the four ligature characters); on arbitrary
strings a second pass can differ (see the counterexample). -/
theorem C8_norm_idempotent (s : String) (h : normInsensitive s = true) :
    normalizeText (normalizeText s) = normalizeText s := by
  have hN : ∀ c ∈ s.data, normSensitiveChars.contains c = false := by
    unfold normInsensitive at h
    rw [List.all_eq_true] at h
    intro c hc
    have h2 := h c hc
    cases hx : normSensitiveChars.contains c
    · rfl
    · rw [hx] at h2; exact absurd h2 (by decide)
  obtain ⟨hOut, hLU, hcs, hstr, heq⟩ := normCore_eq s.data hN
  have h1 : normalizeText s = ⟨normMid s.data⟩ := by
    unfold normalizeText
    rw [heq]
  rw [h1]
  unfold normalizeText
  rw [normPass_id (normMid s.data) hOut hLU hcs hstr]

end Marcus

namespace Marcus

/-- C3: both example strings are classified as author lines: the
comma-separated capitalized name pair returns true, and the
narrative sentence also returns true, because its text contains the
problematic keyword "via " — contradicting the claimed false. -/
theorem C3_author_examples :
    is_author_line "Maria Rossi, Giulia Bianchi" = true ∧
    is_author_line "The catalytic mechanism proceeds via nucleophilic attack" = true := by
  constructor
  · decide
  · decide

/-- C4: the endpoint cascade: the full-page dump branch is taken
exactly when the combined text has at most 10 words, so above 10
words the result does not depend on the full-page text; and on the
enhanced branch the enhanced output replaces the combined text only
when it is non-empty and strictly longer in words. -/
theorem C4_cascade :
    (∀ c fp fp2 e : String, 10 < wordCount c →
      extract_pdf_text_select c fp e = extract_pdf_text_select c fp2 e) ∧
    (∀ c fp e : String, wordCount c ≤ 10 →
      extract_pdf_text_select c fp e = if fp ≠ "" then fp else c) ∧
    (∀ c fp e : String, 10 < wordCount c → wordCount e ≤ wordCount c →
      extract_pdf_text_select c fp e = c) ∧
    (∀ c fp e : String, 10 < wordCount c →
      (wordCount c < 100 ∨ ¬ containsSub (pyLower c) "introduction" ∨
        containsSub (pyLower c) "phytochemical analysis") →
      e ≠ "" → wordCount c < wordCount e →
      extract_pdf_text_select c fp e = e) :=
  ⟨c4_test1, c4_test2, c4_test3, c4_test4⟩

/-- C7: the deduplication pass keeps a non-title fragment exactly
when its shared distinct-word count with the title is below 70% of
the size of the TITLE word set — not of the fragment word set as
claimed (see the counterexample) — and the title is kept as the
head of the output. -/
theorem C7_dedup_threshold :
    (∀ (title : String) (frags : List String) (c : String), title ≠ "" →
      1 < frags.length → c ∈ frags.drop 1 → c ≠ title →
      (c ∈ dedupTitleContent title frags ↔ ¬ sharesTitleWordSet title c)) ∧
    (∀ (title : String) (frags : List String), title ≠ "" → 1 < frags.length →
      (dedupTitleContent title frags).head? = some title) :=
  ⟨c7_mem, c7_head⟩

/-- Witness for C2 at the concrete string "xy". -/
theorem C2_length_floor_witness :
    is_author_line "xy" = false ∧ is_unwanted_content "xy" = true :=
  C2_length_floor "xy" (by decide)

/-- Witness for C4 at concrete strings of 11, 3, 2 and 12 words. -/
theorem C4_cascade_witness :
    extract_pdf_text_select "a b c d e f g h i j k" "x" "" =
      extract_pdf_text_select "a b c d e f g h i j k" "y" "" ∧
    extract_pdf_text_select "a b c" "x" "" = (if ("x" : String) ≠ "" then "x" else "a b c") ∧
    extract_pdf_text_select "a b c d e f g h i j k" "x" "a b" = "a b c d e f g h i j k" ∧
    extract_pdf_text_select "a b c d e f g h i j k" "x" "a b c d e f g h i j k l" =
      "a b c d e f g h i j k l" :=
  ⟨C4_cascade.1 "a b c d e f g h i j k" "x" "y" "" (by decide),
   C4_cascade.2.1 "a b c" "x" "" (by decide),
   C4_cascade.2.2.1 "a b c d e f g h i j k" "x" "a b" (by decide) (by decide),
   C4_cascade.2.2.2 "a b c d e f g h i j k" "x" "a b c d e f g h i j k l"
     (by decide) (Or.inl (by decide)) (by decide) (by decide)⟩

/-- Witness for C6: an INTRODUCTION header hit while collecting
leaves the accumulator unchanged. -/
theorem C6_abstract_stop_witness :
    scanAbstract [⟨"1 INTRODUCTION", "section_header", none, 1⟩,
      ⟨"Tail sentence.", "paragraph", none, 1⟩] true ["Background."] = ["Background."] :=
  C6_abstract_stop ⟨"1 INTRODUCTION", "section_header", none, 1⟩
    [⟨"Tail sentence.", "paragraph", none, 1⟩] ["Background."] rfl (by decide) (by decide)

/-- Witness for C7 at a concrete title and fragment list. -/
theorem C7_dedup_threshold_witness :
    ("delta" ∈ dedupTitleContent "alpha beta gamma" ["alpha beta gamma", "delta"] ↔
      ¬ sharesTitleWordSet "alpha beta gamma" "delta") ∧
    (dedupTitleContent "alpha beta gamma" ["alpha beta gamma", "delta"]).head? =
      some "alpha beta gamma" :=
  ⟨C7_dedup_threshold.1 "alpha beta gamma" ["alpha beta gamma", "delta"] "delta"
      (by decide) (by decide) (by decide) (by decide),
   C7_dedup_threshold.2 "alpha beta gamma" ["alpha beta gamma", "delta"]
      (by decide) (by decide)⟩

/-- Witness for C8 at a concrete repair-insensitive string containing a pipe. -/
theorem C8_norm_idempotent_witness :
    normalizeText (normalizeText "An  Overview | of things , here.") =
      normalizeText "An  Overview | of things , here." :=
  C8_norm_idempotent "An  Overview | of things , here." (by decide)

/-- Witness for C9 at a concrete canonically ordered document. -/
theorem C9_flag_mutex_witness :
    MutexFlags (List.foldl enhStep enhInit
      [(⟨"ABSTRACT", "section_header", none, 1⟩ : TextBlock),
       ⟨"1 INTRODUCTION", "section_header", none, 1⟩,
       ⟨"2 METHODS", "section_header", none, 2⟩]) :=
  C9_flag_mutex _ (by decide) (by decide) _ (List.prefix_refl _)

/-- C1 counterexample: an integer title value makes
combine_to_paragraph raise instead of returning a string. -/
theorem C1_counterexample :
    combine_to_paragraph_dyn (.dict (some (.vint 5)) none none) =
      .error "AttributeError: int object has no attribute strip" := rfl

/-- C2 counterexample: on a 2-character string is_author_line
returns false, while the claim asserts true. -/
theorem C2_counterexample : is_author_line "ab" = false := by decide

/-- C3 counterexample: the narrative sentence is classified as an
author line (the claim asserts false). -/
theorem C3_counterexample :
    is_author_line "The catalytic mechanism proceeds via nucleophilic attack" = true := by
  decide

/-- C4 counterexample: an ExtractionResult with empty title and
abstract and an 11-word main_text still triggers the full-page
dump, because tilde removal shrinks the combined text to 10 words. -/
theorem C4_counterexample :
    wordCount "a b c d e f g h i j ~" = 11 ∧
    extract_pdf_text_select (combine_to_paragraph ⟨"", "", "a b c d e f g h i j ~"⟩)
      "fallback dump" "" = "fallback dump" := by
  constructor
  · decide
  · decide

/-- C5 counterexample: a qualifying level-1 header exists, yet the
title is the earlier level-2 fallback header. -/
theorem C5_counterexample :
    findTitle [⟨"A Perfectly Valid Long Heading", "section_header", some 2, 1⟩,
      ⟨"Actual Level One Title", "section_header", some 1, 1⟩] =
      "A Perfectly Valid Long Heading" ∧
    containsSub (pyUpper "Actual Level One Title") "RESULTS" = false ∧
    5 < ("Actual Level One Title" : String).length := by
  refine ⟨?_, ?_, ?_⟩
  · decide
  · decide
  · decide

/-- C6 counterexample: a section_header containing INTRODUCTION and
the inline marker "ABSTRACT:" does not stop collection and its
remainder is appended to the abstract. -/
theorem C6_counterexample :
    (extract_paper_content ⟨[⟨"ABSTRACT", "section_header", none, 1⟩,
      ⟨"Background sentence here.", "paragraph", none, 1⟩,
      ⟨"ABSTRACT: INTRODUCTION", "section_header", none, 1⟩,
      ⟨"Tail sentence.", "paragraph", none, 1⟩]⟩).abstract =
      "Background sentence here. INTRODUCTION Tail sentence." ∧
    containsSub (pyUpper (pyStrip "ABSTRACT: INTRODUCTION")) "INTRODUCTION" = true := by
  constructor
  · decide
  · decide

/-- C7 counterexample: a fragment sharing only half of its own words
with the title is removed, because the code measures the overlap
against the title word set. -/
theorem C7_counterexample :
    dedupTitleContent "alpha" ["alpha", "alpha beta"] = ["alpha"] ∧
    10 * titleInterCount "alpha" "alpha beta" < 7 * max (wordSet "alpha beta").length 1 := by
  constructor
  · decide
  · decide

/-- C8 counterexample: a second normalization pass differs on inputs
with a hyphen seam, a tilde before punctuation, or a ligature
between case classes. -/
theorem C8_counterexample :
    normalizeText (normalizeText "foo- Bar") ≠ normalizeText "foo- Bar" ∧
    normalizeText (normalizeText "a~.") ≠ normalizeText "a~." ∧
    normalizeText (normalizeText "aŒB") ≠ normalizeText "aŒB" := by
  refine ⟨?_, ?_, ?_⟩
  · decide
  · decide
  · decide

/-- C9 counterexample: an INTRODUCTION header followed by an ABSTRACT
header leaves two capture flags true at once. -/
theorem C9_counterexample :
    ([(⟨"1 INTRODUCTION", "section_header", none, 1⟩ : TextBlock),
      ⟨"ABSTRACT", "section_header", none, 1⟩].foldl enhStep enhInit).capturingAbstract =
      true ∧
    ([(⟨"1 INTRODUCTION", "section_header", none, 1⟩ : TextBlock),
      ⟨"ABSTRACT", "section_header", none, 1⟩].foldl enhStep enhInit).capturingIntroduction =
      true := by
  constructor
  · decide
  · decide

end Marcus
